import Mathlib

/-!
# A verification development for `wiki.go`

`wiki.go` is a small wiki server: request paths are validated by a regular
expression, pages are stored one file per title, and page bodies are run
through `Filter`, which turns `[word]` into a link, before they are shown.

The development has three layers.

* The parts of the Go standard library the program calls (`regexp`,
  `io/ioutil`, `net/http`) are modelled as executable Lean functions:
  a backtracking matcher with Go's leftmost-first priority, `ReplaceAll`
  with `$n` template expansion, a file system with name resolution, links,
  access rights and special files, and `ServeMux` dispatch.
* The functions of `wiki.go` are translated one by one on top of that
  model and keep their names (`save`, `open`, `Filter`, `makeHandler`, ...).
* The theorems at the end state properties of these functions.

Go strings and `[]byte` values are lists of bytes; a byte is a natural
number (a real byte is below 256, and every theorem that quantifies over
byte lists holds in particular for lists of real bytes).
-/

namespace Wiki

/-! ## Bytes and strings -/

/-- A Go `string` or `[]byte`: its bytes in order, each byte a natural number. -/
abbrev Bytes := List Nat

/-- Bytes of an ASCII string literal of the source. -/
def ascii (s : String) : Bytes := s.toList.map Char.toNat

/-- Go slice expression `s[lo:hi]`. -/
def slice (s : Bytes) (lo hi : Nat) : Bytes := (s.drop lo).take (hi - lo)

/-! ## Model of `regexp`

Both patterns of the program consist of ASCII literals, ASCII classes, `+`,
alternation, capture groups and the anchors `^` and `$`. Go decodes the
input as UTF-8 runes; every byte of a multi-byte or invalid encoding is
`≥ 0x80` and so matches none of these atoms, hence matching byte by byte
gives the same matches at the same byte offsets.
-/

/-- Syntax trees for the fragment of Go regular expressions used by the two patterns. -/
inductive Regex where
  /-- The empty pattern. -/
  | empty
  /-- A literal byte. -/
  | lit (c : Nat)
  /-- A character class given by inclusive ranges, as in `[a-zA-Z0-9]`. -/
  | cls (ranges : List (Nat × Nat))
  /-- Concatenation. -/
  | seq (a b : Regex)
  /-- Alternation `a|b`, preferring `a`. -/
  | alt (a b : Regex)
  /-- Greedy repetition `a+`. -/
  | plus (a : Regex)
  /-- Capture group number `i`. -/
  | cap (i : Nat) (a : Regex)
  /-- The anchor `^` (beginning of text, no flags). -/
  | beginText
  /-- The anchor `$` (end of text, no flags). -/
  | endText

/-- The literal string `s`: its bytes one after the other. -/
def Regex.str : Bytes → Regex
  | [] => Regex.empty
  | c :: cs => Regex.seq (Regex.lit c) (Regex.str cs)

/-- Membership of a byte in a class given by inclusive ranges. -/
def inRanges (ranges : List (Nat × Nat)) (c : Nat) : Bool :=
  ranges.any (fun r => decide (r.1 ≤ c) && decide (c ≤ r.2))

/-- Number of capture groups, `Regexp.NumSubexp`. -/
def Regex.numSubexp : Regex → Nat
  | .empty => 0
  | .lit _ => 0
  | .cls _ => 0
  | .seq a b => max a.numSubexp b.numSubexp
  | .alt a b => max a.numSubexp b.numSubexp
  | .plus a => a.numSubexp
  | .cap i a => max i a.numSubexp
  | .beginText => 0
  | .endText => 0

/-- Capture registers: for each group the byte offsets `(start, end)` of
its last participation, `none` while unset (Go stores `-1`). -/
abbrev Caps := List (Option (Nat × Nat))

/-- A state of the backtracking search: the unread input and the capture registers. -/
abbrev Thread := Bytes × Caps

/-- Greedy iteration for `a+`: after one round of `f`, further rounds are
preferred to stopping. Each round of a pattern that consumes input shortens
the unread input, so `fuel` equal to its length is never exhausted. -/
def plusLoop (f : Thread → List Thread) : Nat → Thread → List Thread
  | 0, _ => []
  | fuel + 1, t => (f t).flatMap (fun u => plusLoop f fuel u ++ [u])

/-- All ways `r` matches a prefix of the unread input of a thread, in the
priority order of a backtracking search (Go's leftmost-first order). `n` is
the length of the whole text, so `n - rest.length` is the current offset. -/
def Regex.run : Regex → Nat → Thread → List Thread
  | .empty, _, t => [t]
  | .lit c, _, t =>
    match t.1 with
    | x :: xs => if x = c then [(xs, t.2)] else []
    | [] => []
  | .cls rs, _, t =>
    match t.1 with
    | x :: xs => if inRanges rs x then [(xs, t.2)] else []
    | [] => []
  | .seq a b, n, t => (a.run n t).flatMap (b.run n)
  | .alt a b, n, t => a.run n t ++ b.run n t
  | .plus a, n, t => plusLoop (a.run n) t.1.length t
  | .cap i a, n, t =>
    (a.run n t).map (fun u => (u.1, u.2.set i (some (n - t.1.length, n - u.1.length))))
  | .beginText, n, t => if t.1.length = n then [t] else []
  | .endText, _, t => if t.1 = [] then [t] else []

/-- One anchored attempt: the first match of `re` starting at the offset of
`rest` in `src`, with register 0 set to the bounds of the whole match. -/
def matchAt (re : Regex) (src rest : Bytes) : Option Caps :=
  match re.run src.length (rest, List.replicate (re.numSubexp + 1) none) with
  | [] => none
  | u :: _ => some (u.2.set 0 (some (src.length - rest.length, src.length - u.1.length)))

/-- Unanchored search: attempts at successive offsets, leftmost success wins. -/
def search (re : Regex) (src : Bytes) : Bytes → Option Caps
  | [] => matchAt re src []
  | x :: xs =>
    match matchAt re src (x :: xs) with
    | some a => some a
    | none => search re src xs

/-- Model of `Regexp.doExecute`: leftmost-first match of `re` in `src` starting the search at offset `pos`. -/
def doExecute (re : Regex) (src : Bytes) (pos : Nat) : Option Caps :=
  if pos ≤ src.length then search re src (src.drop pos) else none

/-- Text of group `i` of a match in `src`; empty when the group is unset. -/
def capText (src : Bytes) (a : Caps) (i : Nat) : Bytes :=
  match a.getD i none with
  | some (lo, hi) => slice src lo hi
  | none => []

/-- Model of `Regexp.FindStringSubmatch`: `none` is Go's `nil`; otherwise the texts of the
whole match and of each group. -/
def FindStringSubmatch (re : Regex) (s : Bytes) : Option (List Bytes) :=
  match doExecute re s 0 with
  | none => none
  | some a => some ((List.range (1 + re.numSubexp)).map (capText s a))

/-- Size returned by `utf8.DecodeRune`: 0 on empty input, 1 for ASCII and for an
invalid encoding, otherwise the length of the encoded rune. -/
def runeWidth : Bytes → Nat
  | [] => 0
  | p0 :: t =>
    let cont := fun (lo hi : Nat) (b : Nat) => decide (lo ≤ b) && decide (b ≤ hi)
    let two := fun (lo hi : Nat) =>
      match t with
      | b1 :: _ => if cont lo hi b1 then 2 else 1
      | _ => 1
    let three := fun (lo hi : Nat) =>
      match t with
      | b1 :: b2 :: _ => if cont lo hi b1 && cont 0x80 0xBF b2 then 3 else 1
      | _ => 1
    let four := fun (lo hi : Nat) =>
      match t with
      | b1 :: b2 :: b3 :: _ =>
        if cont lo hi b1 && cont 0x80 0xBF b2 && cont 0x80 0xBF b3 then 4 else 1
      | _ => 1
    if p0 < 0xC2 then 1
    else if p0 ≤ 0xDF then two 0x80 0xBF
    else if p0 = 0xE0 then three 0xA0 0xBF
    else if p0 = 0xED then three 0x80 0x9F
    else if p0 ≤ 0xEF then three 0x80 0xBF
    else if p0 = 0xF0 then four 0x90 0xBF
    else if p0 ≤ 0xF3 then four 0x80 0xBF
    else if p0 = 0xF4 then four 0x80 0x8F
    else 1

/-- The class `\w` of Go: `[0-9A-Za-z_]`. -/
def wordRanges : List (Nat × Nat) := [(48, 57), (65, 90), (95, 95), (97, 122)]

/-- Word bytes: ASCII letters, digits and underscore. -/
def isWord (c : Nat) : Bool := inRanges wordRanges c

/-- Group number of a reference name in a template: its decimal value, or `none` (Go's `-1`)
when the name has a byte that is not a digit, is too long to be a group number, or has a
leading zero. -/
def nameNumber (name : Bytes) : Option Nat :=
  let num := name.foldl (fun acc c =>
    match acc with
    | none => none
    | some n => if c < 48 ∨ 57 < c ∨ n ≥ 100000000 then none else some (n * 10 + (c - 48)))
    (some 0)
  if name.head? = some 48 ∧ 1 < name.length then none else num

/-- Model of `regexp.extract`: reads the name after a `$` of a template; gives the group
number and the rest of the template, or `none` when no name follows. The names of the
templates here are ASCII, so a name is a longest run of word bytes. -/
def extract (str : Bytes) : Option (Option Nat × Bytes) :=
  match str with
  | [] => none
  | 123 :: body =>
    let name := body.takeWhile isWord
    match name, body.dropWhile isWord with
    | _ :: _, 125 :: rest => some (nameNumber name, rest)
    | _, _ => none
  | _ =>
    let name := str.takeWhile isWord
    match name with
    | [] => none
    | _ => some (nameNumber name, str.dropWhile isWord)

/-- Model of `Regexp.expand`: copies the template, replacing `$$` by `$` and `$n` or
`${n}` by the text of group `n` (nothing when the group is unset or out of range; the
patterns here have no named groups, so a reference by name adds nothing). -/
def expand (src : Bytes) (a : Caps) : Nat → Bytes → Bytes
  | 0, template => template
  | fuel + 1, template =>
    match template.span (fun c => c != 36) with
    | (_, []) => template
    | (before, _ :: after) =>
      match after with
      | 36 :: rest => before ++ 36 :: expand src a fuel rest
      | _ =>
        match extract after with
        | none => before ++ 36 :: expand src a fuel after
        | some (num, rest) =>
          before ++ (match num with
            | some i => capText src a i
            | none => []) ++ expand src a fuel rest

/-- The loop of `Regexp.replaceAll`. `lastMatchEnd` is the end of the most recent match,
`searchPos` the offset where the next search starts, `buf` the output so far. Every
round advances `searchPos`, so `fuel` above the length of `src` is never exhausted. -/
def replaceAllLoop (re : Regex) (repl src : Bytes) : Nat → Nat → Nat → Bytes → Bytes
  | 0, lastMatchEnd, _, buf => buf ++ src.drop lastMatchEnd
  | fuel + 1, lastMatchEnd, searchPos, buf =>
    if searchPos ≤ src.length then
      match doExecute re src searchPos with
      | none => buf ++ src.drop lastMatchEnd
      | some a =>
        match a.getD 0 none with
        | none => buf ++ src.drop lastMatchEnd
        | some (a0, a1) =>
          let buf1 := buf ++ slice src lastMatchEnd a0
          let buf2 :=
            if a1 > lastMatchEnd ∨ a0 = 0 then buf1 ++ expand src a (repl.length + 1) repl
            else buf1
          let width := runeWidth (src.drop searchPos)
          let next :=
            if searchPos + width > a1 then searchPos + width
            else if searchPos + 1 > a1 then searchPos + 1
            else a1
          replaceAllLoop re repl src fuel a1 next buf2
    else buf ++ src.drop lastMatchEnd

/-- Model of `Regexp.ReplaceAll`: every non-overlapping leftmost match of `re` in `src`
is replaced by the expansion of `repl`. -/
def ReplaceAll (re : Regex) (src repl : Bytes) : Bytes :=
  replaceAllLoop re repl src (src.length + 2) 0 0 []

/-! ## Model of `io/ioutil`

A file name is not the file. The operating system first walks the name
through the directories, which takes care of `.`, `..`, repeated slashes
and symbolic links and ends at a directory entry; two names that end at
the same entry are the same file under two spellings (`pages/./A.txt` and
`pages/A.txt`). An entry is bound to a file or to nothing, and two entries
may be bound to one file (hard links). A file is a regular file with the
rights the server has on it, or something else: a device such as
`/dev/null`, a directory, a failing medium. The walk, the bindings, the
files and what happens when a file is created are the state; reading and
writing go through them in this order. A failed write is modelled as
changing nothing.
-/

/-- An `error` value returned by the file system. -/
structure FsError where
  /-- Whether `os.IsNotExist` holds of the error. -/
  notExist : Bool
  /-- The text given by `Error()`. -/
  text : Bytes
deriving DecidableEq

/-- What a directory entry can be bound to. -/
inductive Inode where
  /-- A regular file: whether the server may read it, whether it may write it, and its content. -/
  | regular (readable writable : Bool) (data : Bytes)
  /-- Anything that is not a regular file: reading gives a fixed result and writing has a fixed
  outcome and stores nothing. `/dev/null` reads as empty and accepts every write; a directory
  or a failing medium gives an error for both. -/
  | special (read : Except FsError Bytes) (write : Option FsError)

/-- A file system state, as seen by the server. -/
structure Store where
  /-- The directory entry a file name leads to, named by its resolved path, or the error of
  the walk (a missing directory, a component that is no directory, no search permission). -/
  walk : Bytes → Except FsError Bytes
  /-- The number of the file bound to a directory entry, `none` when nothing is bound. -/
  bound : Bytes → Option Nat
  /-- The files by number. -/
  inode : Nat → Inode
  /-- The number the next created file gets. -/
  next : Nat
  /-- What creating a file in a directory entry with given permission bits does: it fails (the
  directory is not writable, no space), or it gives a file on which the server has the listed
  rights to read and to write; these depend on the bits, the umask and the user. -/
  create : Bytes → Nat → Except FsError (Bool × Bool)
  /-- Every bound file has a number below `next`, so a created file is a new one. -/
  fresh : ∀ slot i, bound slot = some i → i < next

/-- Model of `ioutil.ReadFile`: walks the name, follows the binding and reads the file. -/
def ReadFile (st : Store) (name : Bytes) : Except FsError Bytes :=
  match st.walk name with
  | .error e => .error e
  | .ok slot =>
    match st.bound slot with
    | none => .error ⟨true, ascii "open " ++ name ++ ascii ": no such file or directory"⟩
    | some i =>
      match st.inode i with
      | .regular true _ data => .ok data
      | .regular false _ _ => .error ⟨false, ascii "open " ++ name ++ ascii ": permission denied"⟩
      | .special read _ => read

/-- The state after a file is created in the entry `slot` with the given rights and content. -/
def Store.created (st : Store) (slot : Bytes) (rights : Bool × Bool) (data : Bytes) : Store where
  walk := st.walk
  bound := fun s => if s = slot then some st.next else st.bound s
  inode := fun j => if j = st.next then .regular rights.1 rights.2 data else st.inode j
  next := st.next + 1
  create := st.create
  fresh := by
    intro s i h
    dsimp only at h
    by_cases hs : s = slot
    · rw [if_pos hs] at h
      injection h with h
      omega
    · rw [if_neg hs] at h
      exact Nat.lt_succ_of_lt (st.fresh s i h)

/-- The state after the content of the regular file number `i` is replaced; its rights stay. -/
def Store.written (st : Store) (i : Nat) (readable : Bool) (data : Bytes) : Store :=
  { st with inode := fun j => if j = i then .regular readable true data else st.inode j }

/-- Model of `ioutil.WriteFile`: the returned error (`none` is Go's `nil`) and the file
system afterwards. The file is opened for writing, created with the permission bits `perm`
if the entry is bound to nothing, and truncated; an existing file keeps its rights. -/
def WriteFile (st : Store) (name data : Bytes) (perm : Nat) : Option FsError × Store :=
  match st.walk name with
  | .error e => (some e, st)
  | .ok slot =>
    match st.bound slot with
    | some i =>
      match st.inode i with
      | .regular readable true _ => (none, st.written i readable data)
      | .regular _ false _ =>
        (some ⟨false, ascii "open " ++ name ++ ascii ": permission denied"⟩, st)
      | .special _ write => (write, st)
    | none =>
      match st.create slot perm with
      | .error e => (some e, st)
      | .ok rights => (none, st.created slot rights data)

/-! ## Model of `net/http` -/

/-- What a handler did with its `http.ResponseWriter`. -/
inductive Response where
  /-- Content written without an explicit status: a 200 response. -/
  | written (content : Bytes)
  /-- A call `http.Redirect(w, r, url, code)`. -/
  | redirect (url : Bytes) (code : Nat)
  /-- A call `http.Error(w, msg, code)`. -/
  | error (msg : Bytes) (code : Nat)
deriving DecidableEq

/-- Status code of a response. -/
def Response.status : Response → Nat
  | .written _ => 200
  | .redirect _ code => code
  | .error _ code => code

/-- The constant `http.StatusMovedPermanently`. -/
def StatusMovedPermanently : Nat := 301
/-- The constant `http.StatusFound`. -/
def StatusFound : Nat := 302
/-- The constant `http.StatusNotFound`. -/
def StatusNotFound : Nat := 404
/-- The constant `http.StatusInternalServerError`. -/
def StatusInternalServerError : Nat := 500

/-- Model of `http.NotFound`. -/
def NotFound : Response := .error (ascii "404 page not found") StatusNotFound

/-- The part of an `http.Request` the program reads: the URL path and the form data. -/
structure Request where
  /-- The field `r.URL.Path`. -/
  Path : Bytes
  /-- The parsed form, as key and value pairs. -/
  Form : List (Bytes × Bytes)

/-- Model of `Request.FormValue`: the first value for `key`, or the empty string. -/
def Request.FormValue (r : Request) (key : Bytes) : Bytes :=
  match r.Form.find? (fun kv => kv.1 = key) with
  | some kv => kv.2
  | none => []

/-- An `http.HandlerFunc`, with the file system passed through explicitly. -/
abbrev HandlerFunc := Store → Request → Response × Store

/-- The elements of a path between its slashes. -/
def splitSlash : Bytes → List Bytes
  | [] => [[]]
  | c :: cs =>
    if c = 47 then [] :: splitSlash cs
    else
      match splitSlash cs with
      | [] => [[c]]
      | h :: t => (c :: h) :: t

/-- The element stack of `path.Clean`: empty elements and `.` are dropped, `..` removes
the element before it; at the root `..` is dropped, at the start of a relative path it is kept. -/
def cleanElems (rooted : Bool) (stack : List Bytes) : List Bytes → List Bytes
  | [] => stack
  | e :: es =>
    if e = [] ∨ e = [46] then cleanElems rooted stack es
    else if e = [46, 46] then
      if stack = [] ∨ stack.getLast? = some [46, 46] then
        cleanElems rooted (if rooted then stack else stack ++ [e]) es
      else cleanElems rooted stack.dropLast es
    else cleanElems rooted (stack ++ [e]) es

/-- Model of `path.Clean`. -/
def pathClean (p : Bytes) : Bytes :=
  match p with
  | [] => [46]
  | 47 :: rest => 47 :: List.intercalate [47] (cleanElems true [] (splitSlash rest))
  | _ =>
    match cleanElems false [] (splitSlash p) with
    | [] => [46]
    | es => List.intercalate [47] es

/-- Model of `cleanPath` of `net/http`: the canonical form of a request path. -/
def cleanPath (p : Bytes) : Bytes :=
  match p with
  | [] => [47]
  | _ =>
    let q := if p.head? = some 47 then p else 47 :: p
    let np := pathClean q
    if q.getLast? = some 47 ∧ np ≠ [47] then np ++ [47] else np

/-- An entry of a `ServeMux`. -/
structure MuxEntry where
  /-- The registered pattern. -/
  pattern : Bytes
  /-- Whether the entry was registered by the program rather than added as a redirect. -/
  explicit : Bool
  /-- The handler. -/
  h : HandlerFunc

/-- A `ServeMux`: its entries. -/
abbrev ServeMux := List MuxEntry

/-- Model of `http.RedirectHandler`. -/
def RedirectHandler (url : Bytes) (code : Nat) : HandlerFunc :=
  fun st _ => (.redirect url code, st)

/-- Model of `http.NotFoundHandler`. -/
def NotFoundHandler : HandlerFunc := fun st _ => (NotFound, st)

/-- Model of `ServeMux.HandleFunc`: registers `h` for `pattern`; for a pattern `/tree/`
it also registers a permanent redirect from `/tree` unless the program registered `/tree`.
`main` registers every pattern once, so an entry never replaces an earlier one. -/
def HandleFunc (mux : ServeMux) (pattern : Bytes) (h : HandlerFunc) : ServeMux :=
  let mux1 := mux.filter (fun e => e.pattern ≠ pattern) ++ [⟨pattern, true, h⟩]
  if pattern.getLast? = some 47 ∧
      ¬ mux1.any (fun e => decide (e.pattern = pattern.dropLast) && e.explicit) then
    mux1.filter (fun e => e.pattern ≠ pattern.dropLast) ++
      [⟨pattern.dropLast, false, RedirectHandler pattern StatusMovedPermanently⟩]
  else mux1

/-- Model of `pathMatch` of `net/http`: a pattern ending in a slash matches every path it
is a prefix of, any other pattern matches only itself. -/
def pathMatch (pattern path : Bytes) : Bool :=
  match pattern.getLast? with
  | none => false
  | some c => if c = 47 then pattern.isPrefixOf path else decide (pattern = path)

/-- Model of `ServeMux.match`: among the entries matching `path`, the one with the longest pattern. -/
def muxMatch (mux : ServeMux) (path : Bytes) : Option MuxEntry :=
  mux.foldl (fun best e =>
    if pathMatch e.pattern path then
      match best with
      | none => some e
      | some b => if e.pattern.length > b.pattern.length then some e else some b
    else best) none

/-- Model of `ServeMux.ServeHTTP` for a request that is not `CONNECT`: a path that is not
in canonical form is redirected to its canonical form, any other is passed to the handler
of the longest matching pattern. -/
def ServeHTTP (mux : ServeMux) : HandlerFunc :=
  fun st r =>
    if cleanPath r.Path ≠ r.Path then
      RedirectHandler (cleanPath r.Path) StatusMovedPermanently st r
    else
      match muxMatch mux r.Path with
      | some e => e.h st r
      | none => NotFoundHandler st r

/-! ## The program `wiki.go` -/

/-- The pattern `^/(edit|save|view)/([a-zA-Z0-9]+)$`. -/
def validPath : Regex :=
  .seq .beginText
    (.seq (.lit 47)
      (.seq (.cap 1 (.alt (.str (ascii "edit")) (.alt (.str (ascii "save")) (.str (ascii "view")))))
        (.seq (.lit 47)
          (.seq (.cap 2 (.plus (.cls [(97, 122), (65, 90), (48, 57)]))) .endText))))

/-- The struct `Page`. -/
structure Page where
  /-- The title. -/
  Title : Bytes
  /-- The stored content. -/
  Body : Bytes
  /-- The content as shown, of type `template.HTML`. -/
  DisplayBody : Bytes
deriving DecidableEq

/-- The method `Page.save`. -/
def Page.save (p : Page) (st : Store) : Option FsError × Store :=
  let name := ascii "pages/" ++ p.Title ++ ascii ".txt"
  WriteFile st name p.Body 0o600

/-- The function `open`. -/
def «open» (st : Store) (title : Bytes) : Except FsError Page :=
  let name := ascii "pages/" ++ title ++ ascii ".txt"
  match ReadFile st name with
  | .error err => .error err
  | .ok body => .ok ⟨title, body, []⟩

/-- The pattern `\[(\w+)\]` of `Filter`. -/
def pattern : Regex :=
  .seq (.lit 91) (.seq (.cap 1 (.plus (.cls wordRanges))) (.lit 93))

/-- The function `Filter`. -/
def Filter (input : Bytes) : Bytes :=
  ReplaceAll pattern input (ascii "<a href=\"/view/$1\">$1</a>")

section Handlers

-- The method `templates.ExecuteTemplate`: the templates are read from `static/edit.html`
-- and `static/view.html`, so what it writes for a template name and a page, or the error
-- it returns, is a parameter of the handlers.
variable (ExecuteTemplate : Bytes → Page → Except Bytes Bytes)

/-- The function `render`. -/
def render (name : Bytes) (p : Page) : Response :=
  match ExecuteTemplate name p with
  | .error err => .error err StatusInternalServerError
  | .ok html => .written html

/-- The function `indexHandler`. -/
def indexHandler : HandlerFunc :=
  fun st _ => (.written (ascii "Hello wiki!"), st)

/-- The type `Handler`: a handler that also takes the page title. -/
abbrev Handler := Store → Request → Bytes → Response × Store

/-- The function `viewHandler`. -/
def viewHandler : Handler :=
  fun st _ title =>
    match «open» st title with
    | .error _ => (.redirect (ascii "/edit/" ++ title) StatusFound, st)
    | .ok p => (render ExecuteTemplate (ascii "view.html") { p with DisplayBody := Filter p.Body }, st)

/-- The function `editHandler`. -/
def editHandler : Handler :=
  fun st _ title =>
    match «open» st title with
    | .error _ => (render ExecuteTemplate (ascii "edit.html") ⟨title, [], []⟩, st)
    | .ok p => (render ExecuteTemplate (ascii "edit.html") p, st)

/-- The function `saveHandler`. -/
def saveHandler : Handler :=
  fun st r title =>
    let body := r.FormValue (ascii "body")
    let p : Page := ⟨title, body, []⟩
    match p.save st with
    | (some err, st1) => (.error err.text StatusInternalServerError, st1)
    | (none, st1) => (.redirect (ascii "/view/" ++ title) StatusFound, st1)

/-- The function `getTitle`: the response it writes, if any, with the title and the error it returns. -/
def getTitle (r : Request) : Option Response × Bytes × Option Bytes :=
  match FindStringSubmatch validPath r.Path with
  | none => (some NotFound, [], some (ascii "Invalid Page Title"))
  | some m => (none, m.getD 2 [], none)

/-- The function `makeHandler`. -/
def makeHandler (fn : Handler) : HandlerFunc :=
  fun st r =>
    match FindStringSubmatch validPath r.Path with
    | none => (NotFound, st)
    | some m =>
      let title := m.getD 2 []
      fn st r title

/-- The routes registered by `main` on the default `ServeMux`. -/
def mainMux : ServeMux :=
  HandleFunc
    (HandleFunc
      (HandleFunc
        (HandleFunc [] (ascii "/") indexHandler)
        (ascii "/view/") (makeHandler (viewHandler ExecuteTemplate)))
      (ascii "/edit/") (makeHandler (editHandler ExecuteTemplate)))
    (ascii "/save/") (makeHandler saveHandler)

/-- The server started by `main`: `http.ListenAndServe(":8080", nil)` serves every
request with the default `ServeMux`. -/
def serve : HandlerFunc := ServeHTTP (mainMux ExecuteTemplate)

end Handlers

/-! ## Notions used to state and prove the properties

The predicates of the statements (`isAlnum`, `isWordByte`, `WellFormed`, `link`), a
description of `Filter` as a scan for bracket groups (`linkAt`, `findLink`, `linkLoop`)
that the proofs relate to the matcher, and the concrete stores and templates on which the
properties are evaluated.
-/

/-- Bytes of `[a-zA-Z0-9]`: ASCII letters and digits. -/
def isAlnum (c : Nat) : Bool :=
  (decide (97 ≤ c) && decide (c ≤ 122)) || (decide (65 ≤ c) && decide (c ≤ 90)) ||
    (decide (48 ≤ c) && decide (c ≤ 57))

/-- Word bytes written out as comparisons: ASCII letters, digits and the underscore. -/
def isWordByte (c : Nat) : Bool :=
  (decide (97 ≤ c) && decide (c ≤ 122)) || (decide (65 ≤ c) && decide (c ≤ 90)) ||
    (decide (48 ≤ c) && decide (c ≤ 57)) || decide (c = 95)

/-- A well-formed request path: `/`, an operation name, `/`, and a non-empty title of
letters and digits. -/
def WellFormed (p op t : Bytes) : Prop :=
  (op = ascii "edit" ∨ op = ascii "save" ∨ op = ascii "view") ∧ t ≠ [] ∧
    (∀ c ∈ t, isAlnum c = true) ∧ p = ascii "/" ++ op ++ ascii "/" ++ t

/-- The anchor element for a word: a link to the view route of that word, with the word as text. -/
def link (w : Bytes) : Bytes :=
  ascii "<a href=\"/view/" ++ w ++ ascii "\">" ++ w ++ ascii "</a>"

/-- The unread inputs left by a greedy run of a class, longest run first. -/
def clsTails (rs : List (Nat × Nat)) : Bytes → List Bytes
  | [] => []
  | x :: xs => if inRanges rs x then clsTails rs xs ++ [xs] else []

/-- A bracket group at the head of the input: its word and what follows the closing bracket. -/
def linkAt : Bytes → Option (Bytes × Bytes)
  | [] => none
  | c :: r =>
    if c = 91 ∧ r.takeWhile isWord ≠ [] then
      match r.dropWhile isWord with
      | d :: r1 => if d = 93 then some (r.takeWhile isWord, r1) else none
      | [] => none
    else none

/-- The leftmost bracket group: what stands before it, its word, and what follows it. -/
def findLink : Bytes → Option (Bytes × Bytes × Bytes)
  | [] => none
  | c :: r =>
    match linkAt (c :: r) with
    | some (w, r1) => some ([], w, r1)
    | none =>
      match findLink r with
      | some (b, w, r1) => some (c :: b, w, r1)
      | none => none

/-- Replacement of the bracket groups one after the other, at most `fuel` of them. -/
def linkLoop : Nat → Bytes → Bytes
  | 0, rest => rest
  | fuel + 1, rest =>
    match findLink rest with
    | none => rest
    | some (b, w, r1) => b ++ link w ++ linkLoop fuel r1

/-- The file name `pages/<title>.txt` leads to a regular file that the server may read, or to
an entry bound to nothing in which a file created with the permission bits `0600` is readable
by the server. -/
def Storable (st : Store) (name : Bytes) : Prop :=
  ∃ slot, st.walk name = .ok slot ∧
    ((∃ i w data, st.bound slot = some i ∧ st.inode i = .regular true w data) ∨
      (st.bound slot = none ∧ ∀ rights, st.create slot 0o600 = .ok rights → rights.1 = true))

/-- Two file names lead to different files: whenever both walks succeed they end at
different directory entries, and these entries are not bound to one file. -/
def Apart (st : Store) (name name1 : Bytes) : Prop :=
  ∀ slot slot1, st.walk name = .ok slot → st.walk name1 = .ok slot1 →
    slot ≠ slot1 ∧ ∀ i, st.bound slot = some i → st.bound slot1 ≠ some i

/-- Nothing is stored under a file name: its directory entry is bound to nothing, or the walk
fails because a directory on the way does not exist. -/
def Absent (st : Store) (name : Bytes) : Prop :=
  (∃ slot, st.walk name = .ok slot ∧ st.bound slot = none) ∨
    (∃ e, st.walk name = .error e ∧ e.notExist = true)

/-- A store without files: names are resolved by `path.Clean`, and created files may be read
and written. -/
def emptyStore : Store where
  walk := fun name => .ok (pathClean name)
  bound := fun _ => none
  inode := fun _ => .special (.ok []) none
  next := 0
  create := fun _ _ => .ok (true, true)
  fresh := by intro s i h; cases h

/-- A store with one file: `pages/Test.txt` is a regular file with the content `old`. -/
def fullStore : Store where
  walk := fun name => .ok (pathClean name)
  bound := fun slot => if slot = ascii "pages/Test.txt" then some 0 else none
  inode := fun _ => .regular true true (ascii "old")
  next := 1
  create := fun _ _ => .ok (true, true)
  fresh := by
    intro s i h
    dsimp only at h
    split at h
    · injection h with h; omega
    · cases h

/-- A store in which `pages/A.txt` and `pages/B.txt` are hard links to one regular file with
the content `old`. -/
def linkedStore : Store where
  walk := fun name => .ok (pathClean name)
  bound := fun slot =>
    if slot = ascii "pages/A.txt" ∨ slot = ascii "pages/B.txt" then some 0 else none
  inode := fun _ => .regular true true (ascii "old")
  next := 1
  create := fun _ _ => .ok (true, true)
  fresh := by
    intro s i h
    dsimp only at h
    split at h
    · injection h with h; omega
    · cases h

/-- A store in which `pages/Test.txt` is a symbolic link to `/dev/null`: writing succeeds and
stores nothing, reading gives the empty content. -/
def sinkStore : Store where
  walk := fun name => .ok (pathClean name)
  bound := fun slot => if slot = ascii "pages/Test.txt" then some 0 else none
  inode := fun _ => .special (.ok []) none
  next := 1
  create := fun _ _ => .ok (true, true)
  fresh := by
    intro s i h
    dsimp only at h
    split at h
    · injection h with h; omega
    · cases h

/-- A store in which every access to a file fails with an input/output error. -/
def brokenStore : Store where
  walk := fun name => .ok (pathClean name)
  bound := fun _ => some 0
  inode := fun _ =>
    .special (.error ⟨false, ascii "input/output error"⟩) (some ⟨false, ascii "input/output error"⟩)
  next := 1
  create := fun _ _ => .ok (true, true)
  fresh := by
    intro s i h
    injection h with h; omega

/-- A template executor that writes the template name, the title, the body and the display body. -/
def plainTemplates : Bytes → Page → Except Bytes Bytes :=
  fun name p => .ok (name ++ 10 :: p.Title ++ 10 :: p.Body ++ 10 :: p.DisplayBody)

/-! ## The matcher on the shapes used by the two patterns -/

theorem run_cls_nil (rs : List (Nat × Nat)) (n : Nat) (cs : Caps) :
    (Regex.cls rs).run n ([], cs) = [] := by
  simp [Regex.run]

theorem run_cls_cons (rs : List (Nat × Nat)) (n : Nat) (x : Nat) (xs : Bytes) (cs : Caps) :
    (Regex.cls rs).run n (x :: xs, cs) = if inRanges rs x = true then [(xs, cs)] else [] := by
  simp [Regex.run]

theorem plusLoop_cls (rs : List (Nat × Nat)) (n : Nat) (cs : Caps) :
    ∀ (fuel : Nat) (rest : Bytes), rest.length ≤ fuel →
      plusLoop ((Regex.cls rs).run n) fuel (rest, cs) = (clsTails rs rest).map (fun r => (r, cs)) := by
  intro fuel
  induction fuel with
  | zero =>
    intro rest h
    have : rest = [] := List.eq_nil_of_length_eq_zero (Nat.le_zero.mp h)
    subst this
    simp [plusLoop, clsTails]
  | succ k ih =>
    intro rest h
    cases rest with
    | nil => rw [plusLoop, run_cls_nil]; simp [clsTails]
    | cons x xs =>
      have hk : xs.length ≤ k := by simpa using h
      rw [plusLoop, run_cls_cons]
      by_cases hx : inRanges rs x = true
      · simp [clsTails, hx, ih xs hk]
      · simp [clsTails, hx]

theorem clsTails_flatMap {β : Type} (rs : List (Nat × Nat)) (k : Bytes → List β)
    (hk : ∀ x xs, inRanges rs x = true → k (x :: xs) = []) :
    ∀ r : Bytes, (clsTails rs r).flatMap k =
      if r.takeWhile (inRanges rs) = [] then [] else k (r.dropWhile (inRanges rs)) := by
  intro r
  induction r with
  | nil => simp [clsTails]
  | cons x xs ih =>
    by_cases hx : inRanges rs x = true
    · simp only [clsTails, hx, if_true, List.flatMap_append, ih, List.takeWhile_cons,
        List.dropWhile_cons]
      cases xs with
      | nil => simp
      | cons y ys =>
        by_cases hy : inRanges rs y = true
        · simp [hy, hk y ys hy]
        · simp [hy]
    · simp [clsTails, hx]

theorem run_capPlusCls_seq (rs : List (Nat × Nat)) (K : Regex) (i n : Nat)
    (hK : ∀ x xs cs, inRanges rs x = true → K.run n (x :: xs, cs) = [])
    (rest : Bytes) (cs : Caps) :
    (Regex.seq (.cap i (.plus (.cls rs))) K).run n (rest, cs) =
      if rest.takeWhile (inRanges rs) = [] then []
      else K.run n (rest.dropWhile (inRanges rs),
        cs.set i (some (n - rest.length, n - (rest.dropWhile (inRanges rs)).length))) := by
  have h := clsTails_flatMap rs
    (fun r => K.run n (r, cs.set i (some (n - rest.length, n - r.length))))
    (fun x xs hx => hK x xs _ hx) rest
  rw [← h]
  show (((Regex.plus (.cls rs)).run n (rest, cs)).map _).flatMap _ = _
  show ((plusLoop ((Regex.cls rs).run n) rest.length (rest, cs)).map _).flatMap _ = _
  rw [plusLoop_cls rs n cs rest.length rest (Nat.le_refl _)]
  simp [List.flatMap_map, List.map_map, Function.comp]

theorem inRanges_alnum (c : Nat) : inRanges [(97, 122), (65, 90), (48, 57)] c = isAlnum c := by
  simp [inRanges, isAlnum, Bool.or_assoc]

theorem isWord_eq (c : Nat) : isWord c = isWordByte c := by
  simp only [isWord, inRanges, wordRanges, isWordByte, List.any_cons, List.any_nil, Bool.or_false]
  rw [Bool.eq_iff_iff]
  simp only [Bool.or_eq_true, Bool.and_eq_true, decide_eq_true_eq]
  omega

theorem takeWhile_eq_self_of_all (p : Nat → Bool) (t : Bytes) (h : ∀ c ∈ t, p c = true) :
    t.takeWhile p = t := by
  induction t with
  | nil => rfl
  | cons x xs ih =>
    have hx : p x = true := h x (List.mem_cons_self _ _)
    simp [List.takeWhile_cons, hx, ih (fun c hc => h c (List.mem_cons_of_mem _ hc))]

theorem dropWhile_eq_nil_of_all (p : Nat → Bool) (t : Bytes) (h : ∀ c ∈ t, p c = true) :
    t.dropWhile p = [] := by
  induction t with
  | nil => rfl
  | cons x xs ih =>
    have hx : p x = true := h x (List.mem_cons_self _ _)
    simp [List.dropWhile_cons, hx, ih (fun c hc => h c (List.mem_cons_of_mem _ hc))]

theorem run_endText_cons (n : Nat) (x : Nat) (xs : Bytes) (cs : Caps) :
    Regex.endText.run n (x :: xs, cs) = [] := by
  simp [Regex.run]

/-- The tail `([a-zA-Z0-9]+)$` of `validPath` on an unread input. -/
theorem run_titleTail (n : Nat) (rest : Bytes) (cs : Caps) :
    (Regex.seq (.cap 2 (.plus (.cls [(97, 122), (65, 90), (48, 57)]))) .endText).run n (rest, cs) =
      if rest ≠ [] ∧ ∀ c ∈ rest, isAlnum c = true then
        [([], cs.set 2 (some (n - rest.length, n)))]
      else [] := by
  rw [run_capPlusCls_seq _ _ _ _ (fun x xs cs _ => run_endText_cons n x xs cs)]
  have hfun : inRanges [(97, 122), (65, 90), (48, 57)] = isAlnum := funext inRanges_alnum
  rw [hfun]
  by_cases h : rest ≠ [] ∧ ∀ c ∈ rest, isAlnum c = true
  · rw [takeWhile_eq_self_of_all _ rest h.2, dropWhile_eq_nil_of_all _ rest h.2, if_pos h,
      if_neg h.1]
    simp [Regex.run]
  · rw [if_neg h]
    by_cases h0 : rest = []
    · subst h0; simp
    · have h3 : ¬ ∀ c ∈ rest, isAlnum c = true := fun hh => h ⟨h0, hh⟩
      have h4 : rest.dropWhile isAlnum ≠ [] := by
        intro hd
        exact h3 (fun c hc => List.dropWhile_eq_nil_iff.mp hd c hc)
      split
      · rfl
      · cases hd : rest.dropWhile isAlnum with
        | nil => exact absurd hd h4
        | cons y ys => simp [Regex.run]

theorem run_seq_of_singleton (a b : Regex) (n : Nat) (t u : Thread) (h : a.run n t = [u]) :
    (Regex.seq a b).run n t = b.run n u := by
  show (a.run n t).flatMap (b.run n) = _
  rw [h]; simp

theorem mem_run_seq (a b : Regex) (n : Nat) (t u : Thread) :
    u ∈ (Regex.seq a b).run n t ↔ ∃ v ∈ a.run n t, u ∈ b.run n v := by
  show u ∈ (a.run n t).flatMap (b.run n) ↔ _
  simp [List.mem_flatMap]

theorem mem_run_lit (c : Nat) (n : Nat) (t u : Thread) :
    u ∈ (Regex.lit c).run n t ↔ t.1 = c :: u.1 ∧ u.2 = t.2 := by
  obtain ⟨rest, cs⟩ := t
  obtain ⟨r, ds⟩ := u
  cases rest with
  | nil => simp [Regex.run]
  | cons x xs =>
    by_cases hx : x = c
    · simp [Regex.run, hx, eq_comm]
    · simp [Regex.run, hx]

theorem mem_run_str (s : Bytes) (n : Nat) :
    ∀ (t u : Thread), u ∈ (Regex.str s).run n t ↔ t.1 = s ++ u.1 ∧ u.2 = t.2 := by
  induction s with
  | nil =>
    intro t u
    obtain ⟨rest, cs⟩ := t
    obtain ⟨r, ds⟩ := u
    simp [Regex.str, Regex.run, eq_comm]
  | cons c cs ih =>
    intro t u
    rw [Regex.str, mem_run_seq]
    constructor
    · rintro ⟨v, hv, hu⟩
      rw [mem_run_lit] at hv
      rw [ih] at hu
      exact ⟨by rw [hv.1, hu.1]; rfl, by rw [hu.2, hv.2]⟩
    · rintro ⟨h1, h2⟩
      refine ⟨(cs ++ u.1, t.2), ?_, ?_⟩
      · rw [mem_run_lit]; exact ⟨h1, rfl⟩
      · rw [ih]; exact ⟨rfl, h2⟩

theorem mem_run_alt (a b : Regex) (n : Nat) (t u : Thread) :
    u ∈ (Regex.alt a b).run n t ↔ u ∈ a.run n t ∨ u ∈ b.run n t := by
  show u ∈ a.run n t ++ b.run n t ↔ _
  simp

theorem mem_run_cap (i : Nat) (a : Regex) (n : Nat) (t u : Thread) :
    u ∈ (Regex.cap i a).run n t ↔
      ∃ w ∈ a.run n t, u = (w.1, w.2.set i (some (n - t.1.length, n - w.1.length))) := by
  show u ∈ (a.run n t).map _ ↔ _
  simp [List.mem_map, eq_comm]

/-- Every match of `validPath` from the start of a text has a well-formed text before it. -/
theorem validPath_run_sound (p : Bytes) (cs : Caps) (u : Thread)
    (h : u ∈ validPath.run p.length (p, cs)) : ∃ op t, WellFormed p op t := by
  rw [validPath, mem_run_seq] at h
  obtain ⟨v1, hv1, h⟩ := h
  have e1 : v1 = (p, cs) := by
    simp only [Regex.run] at hv1
    split at hv1 <;> simp_all
  subst e1
  rw [mem_run_seq] at h
  obtain ⟨v2, hv2, h⟩ := h
  rw [mem_run_lit] at hv2
  rw [mem_run_seq] at h
  obtain ⟨v3, hv3, h⟩ := h
  rw [mem_run_seq] at h
  obtain ⟨v4, hv4, h⟩ := h
  rw [mem_run_lit] at hv4
  obtain ⟨r4, c4⟩ := v4
  rw [run_titleTail] at h
  have hop : ∃ op, (op = ascii "edit" ∨ op = ascii "save" ∨ op = ascii "view") ∧ v2.1 = op ++ v3.1 := by
    rw [mem_run_cap] at hv3
    obtain ⟨w, hw, rfl⟩ := hv3
    rw [mem_run_alt, mem_run_alt] at hw
    rcases hw with hw | hw | hw
    · exact ⟨_, Or.inl rfl, ((mem_run_str _ _ _ _).mp hw).1⟩
    · exact ⟨_, Or.inr (Or.inl rfl), ((mem_run_str _ _ _ _).mp hw).1⟩
    · exact ⟨_, Or.inr (Or.inr rfl), ((mem_run_str _ _ _ _).mp hw).1⟩
  obtain ⟨op, hop, e3⟩ := hop
  split at h
  · rename_i ht
    refine ⟨op, r4, hop, ht.1, ht.2, ?_⟩
    have := hv2.1
    simp only at this hv4
    rw [this, e3, hv4.1]
    simp [ascii]
  · simp at h

theorem run_str_append (s : Bytes) (n : Nat) (rest : Bytes) (cs : Caps) :
    (Regex.str s).run n (s ++ rest, cs) = [(rest, cs)] := by
  induction s with
  | nil => simp [Regex.str, Regex.run]
  | cons c s ih =>
    rw [Regex.str, run_seq_of_singleton _ _ _ _ (s ++ rest, cs) (by simp [Regex.run]), ih]

theorem run_opGroup (n : Nat) (op rest : Bytes) (cs : Caps)
    (hop : op = ascii "edit" ∨ op = ascii "save" ∨ op = ascii "view") :
    (Regex.cap 1 (.alt (.str (ascii "edit")) (.alt (.str (ascii "save")) (.str (ascii "view"))))).run n
        (op ++ rest, cs) =
      [(rest, cs.set 1 (some (n - (rest.length + 4), n - rest.length)))] := by
  rcases hop with h | h | h <;> subst h <;>
    simp [Regex.run, Regex.str, ascii]

/-- On a well-formed path the one match of `validPath` ends at the end of the text, with group 1 on
the operation name and group 2 on the title. -/
theorem validPath_run_wf (p op t : Bytes) (cs : Caps) (h : WellFormed p op t) :
    validPath.run p.length (p, cs) =
      [([], (cs.set 1 (some (1, 5))).set 2 (some (6, p.length)))] := by
  obtain ⟨hop, ht0, htc, hp⟩ := h
  have hlen : op.length = 4 := by rcases hop with h | h | h <;> subst h <;> rfl
  have hp1 : p = 47 :: (op ++ (47 :: t)) := by rw [hp]; simp [ascii]
  have hpl : p.length = t.length + 6 := by rw [hp1]; simp [hlen]; omega
  rw [validPath]
  rw [run_seq_of_singleton _ _ _ _ (p, cs) (by simp [Regex.run])]
  rw [run_seq_of_singleton _ _ _ _ (op ++ (47 :: t), cs) (by rw [hp1]; simp [Regex.run])]
  rw [run_seq_of_singleton _ _ _ _ _ (run_opGroup _ op (47 :: t) cs hop)]
  rw [run_seq_of_singleton _ _ _ _ (t, cs.set 1 (some (p.length - ((47 :: t).length + 4),
    p.length - (47 :: t).length))) (by simp [Regex.run])]
  rw [run_titleTail, if_pos ⟨ht0, htc⟩]
  have e1 : p.length - ((47 :: t).length + 4) = 1 := by simp only [List.length_cons]; omega
  have e2 : p.length - (47 :: t).length = 5 := by simp only [List.length_cons]; omega
  have e3 : p.length - t.length = 6 := by omega
  rw [e1, e2, e3]

theorem slice_zero_length (s : Bytes) : slice s 0 s.length = s := by
  simp [slice]

theorem validPath_search_short (p : Bytes) :
    ∀ rest : Bytes, rest.length < p.length → search validPath p rest = none := by
  have hm : ∀ rest : Bytes, rest.length < p.length → matchAt validPath p rest = none := by
    intro rest h
    have : validPath.run p.length (rest, List.replicate (validPath.numSubexp + 1) none) = [] := by
      rw [validPath]
      show (Regex.beginText.run _ _).flatMap _ = _
      have : rest.length ≠ p.length := by omega
      simp [Regex.run, this]
    simp [matchAt, this]
  intro rest
  induction rest with
  | nil => intro h; rw [search, hm [] h]
  | cons x xs ih =>
    intro h
    rw [search, hm (x :: xs) h]
    exact ih (by simp at h; omega)

theorem validPath_search (p : Bytes) : search validPath p p = matchAt validPath p p := by
  cases p with
  | nil => rfl
  | cons x xs =>
    rw [search]
    cases h : matchAt validPath (x :: xs) (x :: xs) with
    | some a => rfl
    | none => exact validPath_search_short (x :: xs) xs (by simp)

theorem FindStringSubmatch_validPath (p : Bytes) :
    FindStringSubmatch validPath p =
      match matchAt validPath p p with
      | none => none
      | some a => some [capText p a 0, capText p a 1, capText p a 2] := by
  have h : doExecute validPath p 0 = matchAt validPath p p := by
    simp [doExecute, validPath_search]
  rw [FindStringSubmatch, h]
  cases matchAt validPath p p with
  | none => rfl
  | some a => rfl

/-- A well-formed path matches `validPath`, and the match consists of the path, the operation
name and the title. -/
theorem validPath_complete (p op t : Bytes) (h : WellFormed p op t) :
    FindStringSubmatch validPath p = some [p, op, t] := by
  have hrun := validPath_run_wf p op t (List.replicate (validPath.numSubexp + 1) none) h
  obtain ⟨hop, ht0, htc, hp⟩ := h
  have hlen : op.length = 4 := by rcases hop with h | h | h <;> subst h <;> rfl
  have hp1 : p = 47 :: (op ++ (47 :: t)) := by rw [hp]; simp [ascii]
  have hm : matchAt validPath p p = some [some (0, p.length), some (1, 5), some (6, p.length)] := by
    rw [matchAt, hrun]
    simp [validPath, Regex.numSubexp, List.replicate]
  rw [FindStringSubmatch_validPath, hm]
  have s0 : capText p [some (0, p.length), some (1, 5), some (6, p.length)] 0 = p := by
    simp [capText, slice]
  have s1 : capText p [some (0, p.length), some (1, 5), some (6, p.length)] 1 = op := by
    simp [capText, slice, hp1, ← hlen]
  have s2 : capText p [some (0, p.length), some (1, 5), some (6, p.length)] 2 = t := by
    have hq : p = (47 :: op ++ [47]) ++ t := by rw [hp1]; simp
    have hl : (47 :: op ++ [47]).length = 6 := by simp [hlen]
    have hd : p.drop 6 = t := by rw [hq, ← hl, List.drop_left]
    have hpl : p.length - 6 = t.length := by rw [hq]; simp [hlen]; omega
    simp only [capText, slice, List.getD_cons_succ, List.getD_cons_zero]
    rw [hd, hpl, List.take_length]
  simp only [s0, s1, s2]

/-- A path that matches `validPath` is well-formed. -/
theorem validPath_sound (p : Bytes) (m : List Bytes) (h : FindStringSubmatch validPath p = some m) :
    ∃ op t, WellFormed p op t := by
  rw [FindStringSubmatch_validPath] at h
  cases hm : matchAt validPath p p with
  | none => rw [hm] at h; simp at h
  | some a =>
    rw [matchAt] at hm
    cases hr : validPath.run p.length (p, List.replicate (validPath.numSubexp + 1) none) with
    | nil => rw [hr] at hm; simp at hm
    | cons u us =>
      exact validPath_run_sound p _ u (by rw [hr]; exact List.mem_cons_self _ _)

/-! ## `Filter` as a scan for bracket groups -/

theorem expand_linkTemplate (src : Bytes) (a : Caps) :
    expand src a ((ascii "<a href=\"/view/$1\">$1</a>").length + 1) (ascii "<a href=\"/view/$1\">$1</a>") =
      link (capText src a 1) := by
  simp [ascii, expand, List.span, List.span.loop, extract, isWord, inRanges, wordRanges, nameNumber, link]

theorem isWord_ne_close (x : Nat) (h : isWord x = true) : x ≠ 93 := by
  rw [isWord_eq] at h
  simp only [isWordByte, Bool.or_eq_true, Bool.and_eq_true, decide_eq_true_eq] at h
  omega

theorem isWord_ne_open (x : Nat) (h : isWord x = true) : x ≠ 91 := by
  rw [isWord_eq] at h
  simp only [isWordByte, Bool.or_eq_true, Bool.and_eq_true, decide_eq_true_eq] at h
  omega

theorem run_lit_cons (c n x : Nat) (xs : Bytes) (cs : Caps) :
    (Regex.lit c).run n (x :: xs, cs) = if x = c then [(xs, cs)] else [] := by
  simp [Regex.run]

theorem run_lit_nil (c n : Nat) (cs : Caps) : (Regex.lit c).run n ([], cs) = [] := by
  simp [Regex.run]

theorem run_seq_lit_cons (c : Nat) (K : Regex) (n x : Nat) (xs : Bytes) (cs : Caps) :
    (Regex.seq (.lit c) K).run n (x :: xs, cs) = if x = c then K.run n (xs, cs) else [] := by
  show ((Regex.lit c).run n (x :: xs, cs)).flatMap (K.run n) = _
  rw [run_lit_cons]
  split <;> simp

theorem run_seq_lit_nil (c : Nat) (K : Regex) (n : Nat) (cs : Caps) :
    (Regex.seq (.lit c) K).run n ([], cs) = [] := by
  show ((Regex.lit c).run n ([], cs)).flatMap (K.run n) = _
  rw [run_lit_nil]; rfl

/-- One anchored attempt of `pattern`, in terms of `linkAt`. -/
theorem matchAt_pattern (src rest : Bytes) :
    matchAt pattern src rest =
      match linkAt rest with
      | none => none
      | some (_, r1) =>
        some [some (src.length - rest.length, src.length - r1.length),
          some (src.length - (rest.length - 1), src.length - (r1.length + 1))] := by
  have hns : pattern.numSubexp + 1 = 2 := rfl
  rw [matchAt, hns]
  cases rest with
  | nil => rw [pattern, run_seq_lit_nil]; rfl
  | cons c r =>
    rw [pattern, run_seq_lit_cons]
    by_cases hc : c = 91
    · rw [if_pos hc]
      rw [run_capPlusCls_seq _ _ _ _ (fun x xs cs hx => by
        rw [run_lit_cons, if_neg (isWord_ne_close x hx)])]
      have hfun : inRanges wordRanges = isWord := rfl
      rw [hfun]
      by_cases ht : r.takeWhile isWord = []
      · simp [linkAt, ht]
      · rw [if_neg ht]
        cases hd : r.dropWhile isWord with
        | nil => simp [linkAt, hc, ht, hd, run_lit_nil]
        | cons d r1 =>
          rw [run_lit_cons]
          by_cases h93 : d = 93
          · simp [linkAt, hc, ht, hd, h93, List.replicate]
          · simp [linkAt, hc, ht, hd, h93]
    · rw [if_neg hc]
      simp [linkAt, hc]

theorem linkAt_some (rest w r1 : Bytes) (h : linkAt rest = some (w, r1)) :
    w ≠ [] ∧ (∀ c ∈ w, isWord c = true) ∧ rest = 91 :: (w ++ 93 :: r1) := by
  cases rest with
  | nil => simp [linkAt] at h
  | cons c r =>
    rw [linkAt] at h
    split at h
    · rename_i hc
      cases hd : r.dropWhile isWord with
      | nil => rw [hd] at h; simp at h
      | cons d r2 =>
        rw [hd] at h
        simp only at h
        split at h
        · rename_i h93
          simp only [Option.some.injEq, Prod.mk.injEq] at h
          obtain ⟨hw, hr⟩ := h
          subst hw; subst hr
          refine ⟨hc.2, fun c hc' => List.mem_takeWhile_imp hc', ?_⟩
          rw [hc.1, ← h93, ← hd, List.takeWhile_append_dropWhile]
        · simp at h
    · simp at h

theorem linkAt_group (w r1 : Bytes) (hw : w ≠ []) (hc : ∀ c ∈ w, isWord c = true) :
    linkAt (91 :: (w ++ 93 :: r1)) = some (w, r1) := by
  have h93 : isWord 93 = false := by decide
  have ht : (w ++ 93 :: r1).takeWhile isWord = w := by
    rw [List.takeWhile_append_of_pos hc]; simp [List.takeWhile_cons, h93]
  have hd : (w ++ 93 :: r1).dropWhile isWord = 93 :: r1 := by
    rw [List.dropWhile_append_of_pos hc]; simp [List.dropWhile_cons, h93]
  simp [linkAt, ht, hd, hw]

theorem findLink_some (rest b w r1 : Bytes) (h : findLink rest = some (b, w, r1)) :
    w ≠ [] ∧ (∀ c ∈ w, isWord c = true) ∧ rest = b ++ 91 :: (w ++ 93 :: r1) := by
  induction rest generalizing b with
  | nil => simp [findLink] at h
  | cons c r ih =>
    rw [findLink] at h
    cases hl : linkAt (c :: r) with
    | some v =>
      obtain ⟨w1, r2⟩ := v
      rw [hl] at h
      simp only [Option.some.injEq, Prod.mk.injEq] at h
      obtain ⟨hb, hw, hr⟩ := h
      subst hb; subst hw; subst hr
      simpa using linkAt_some _ _ _ hl
    | none =>
      rw [hl] at h
      cases hf : findLink r with
      | none => rw [hf] at h; simp at h
      | some v =>
        obtain ⟨b1, w1, r2⟩ := v
        rw [hf] at h
        simp only [Option.some.injEq, Prod.mk.injEq] at h
        obtain ⟨hb, hw, hr⟩ := h
        subst hb; subst hw; subst hr
        obtain ⟨h1, h2, h3⟩ := ih b1 hf
        exact ⟨h1, h2, by rw [h3]; rfl⟩

/-- The unanchored search of `pattern`, in terms of `findLink`. -/
theorem search_pattern (src : Bytes) :
    ∀ rest : Bytes, rest.length ≤ src.length →
      search pattern src rest =
        match findLink rest with
        | none => none
        | some (b, _, r1) =>
          some [some (src.length - rest.length + b.length, src.length - r1.length),
            some (src.length - rest.length + b.length + 1, src.length - (r1.length + 1))] := by
  intro rest
  induction rest with
  | nil => intro _; rw [search, matchAt_pattern]; rfl
  | cons c r ih =>
    intro hlen
    have hlen1 : r.length + 1 ≤ src.length := by simpa using hlen
    rw [search, matchAt_pattern, findLink]
    cases hl : linkAt (c :: r) with
    | some v =>
      obtain ⟨w1, r2⟩ := v
      simp only [List.length_cons, List.length_nil, Nat.add_zero, Nat.add_sub_cancel]
      have e : src.length - r.length = src.length - (r.length + 1) + 1 := by omega
      rw [e]
    | none =>
      simp only
      rw [ih (by omega)]
      cases hf : findLink r with
      | none => rfl
      | some v =>
        obtain ⟨b1, w1, r2⟩ := v
        simp only [List.length_cons]
        have e : src.length - r.length + b1.length = src.length - (r.length + 1) + (b1.length + 1) := by
          omega
        rw [e]

theorem runeWidth_le (s : Bytes) : runeWidth s ≤ 4 := by
  cases s with
  | nil => simp [runeWidth]
  | cons p0 t =>
    simp only [runeWidth]
    repeat' split
    all_goals omega

theorem runeWidth_ascii (c : Nat) (t : Bytes) (h : c < 0xC2) : runeWidth (c :: t) = 1 := by
  simp [runeWidth, h]

theorem slice_mid (x y z : Bytes) : slice (x ++ (y ++ z)) x.length (x.length + y.length) = y := by
  simp [slice]

/-- The loop of `ReplaceAll` for `pattern`, started right after a match, replaces the bracket
groups of the unread input one after the other. -/
theorem replaceAllLoop_pattern (fuel : Nat) :
    ∀ (pre rest buf : Bytes),
      replaceAllLoop pattern (ascii "<a href=\"/view/$1\">$1</a>") (pre ++ rest) fuel
        pre.length pre.length buf = buf ++ linkLoop fuel rest := by
  induction fuel with
  | zero => intro pre rest buf; simp [replaceAllLoop, linkLoop]
  | succ k ih =>
    intro pre rest buf
    have hpos : pre.length ≤ (pre ++ rest).length := by simp
    have hdrop : (pre ++ rest).drop pre.length = rest := List.drop_left _ _
    rw [replaceAllLoop, if_pos hpos, doExecute, if_pos hpos, hdrop,
      search_pattern _ rest (by simp), linkLoop]
    cases hf : findLink rest with
    | none => simp only [hdrop]
    | some v =>
      obtain ⟨b, w, r1⟩ := v
      obtain ⟨hw0, hwc, hrest⟩ := findLink_some _ _ _ _ hf
      have hwl : 0 < w.length := List.length_pos.mpr hw0
      have hlen : (pre ++ rest).length = pre.length + b.length + w.length + r1.length + 2 := by
        rw [hrest]; simp; omega
      have hrl : rest.length = b.length + w.length + r1.length + 2 := by
        rw [hrest]; simp; omega
      have ea0 : (pre ++ rest).length - rest.length + b.length = pre.length + b.length := by omega
      have ea1 : (pre ++ rest).length - r1.length = pre.length + b.length + w.length + 2 := by omega
      have eg1 : (pre ++ rest).length - (r1.length + 1) = pre.length + b.length + 1 + w.length := by
        omega
      simp only [List.getD_cons_zero]
      rw [ea0, ea1, eg1]
      have hsl : slice (pre ++ rest) pre.length (pre.length + b.length) = b := by
        rw [hrest]; exact slice_mid pre b _
      have hcap : capText (pre ++ rest)
          [some (pre.length + b.length, pre.length + b.length + w.length + 2),
            some (pre.length + b.length + 1, pre.length + b.length + 1 + w.length)] 1 = w := by
        simp only [capText, List.getD_cons_succ, List.getD_cons_zero]
        have : pre ++ rest = (pre ++ b ++ [91]) ++ (w ++ 93 :: r1) := by rw [hrest]; simp
        rw [this]
        have hl : pre.length + b.length + 1 = (pre ++ b ++ [91]).length := by simp; omega
        rw [hl]
        exact slice_mid _ w _
      have hgt : pre.length + b.length + w.length + 2 > pre.length ∨ pre.length + b.length = 0 :=
        Or.inl (by omega)
      rw [if_pos hgt, expand_linkTemplate, hcap, hsl]
      have hwidth : ¬ pre.length + runeWidth rest > pre.length + b.length + w.length + 2 := by
        cases b with
        | nil =>
          rw [hrest]
          simp only [List.nil_append]
          rw [runeWidth_ascii 91 _ (by decide)]
          omega
        | cons c b1 =>
          have := runeWidth_le rest
          simp only [List.length_cons]
          omega
      have hone : ¬ pre.length + 1 > pre.length + b.length + w.length + 2 := by omega
      rw [if_neg hwidth, if_neg hone]
      have hsplit : pre ++ rest = (pre ++ b ++ 91 :: (w ++ [93])) ++ r1 := by rw [hrest]; simp
      have hl2 : pre.length + b.length + w.length + 2 = (pre ++ b ++ 91 :: (w ++ [93])).length := by
        simp; omega
      rw [hl2, hsplit, ih]
      simp

theorem Filter_eq_linkLoop (input : Bytes) : Filter input = linkLoop (input.length + 2) input := by
  have h := replaceAllLoop_pattern (input.length + 2) [] input []
  simpa [Filter, ReplaceAll] using h

theorem findLink_length (rest b w r1 : Bytes) (h : findLink rest = some (b, w, r1)) :
    r1.length < rest.length := by
  obtain ⟨_, _, hr⟩ := findLink_some _ _ _ _ h
  rw [hr]; simp; omega

theorem linkLoop_fuel (f1 : Nat) :
    ∀ (f2 : Nat) (rest : Bytes), rest.length < f1 → rest.length < f2 →
      linkLoop f1 rest = linkLoop f2 rest := by
  induction f1 with
  | zero => intro f2 rest h; omega
  | succ k ih =>
    intro f2 rest h1 h2
    cases f2 with
    | zero => omega
    | succ j =>
      rw [linkLoop, linkLoop]
      cases hf : findLink rest with
      | none => rfl
      | some v =>
        obtain ⟨b, w, r1⟩ := v
        have := findLink_length _ _ _ _ hf
        simp only
        rw [ih j r1 (by omega) (by omega)]

/-- The scan equation of `Filter`: without a bracket group the input is returned as it is;
otherwise the leftmost group becomes a link and the rest of the input is filtered in turn. -/
theorem Filter_unfold (input : Bytes) :
    Filter input =
      match findLink input with
      | none => input
      | some (b, w, r1) => b ++ link w ++ Filter r1 := by
  rw [Filter_eq_linkLoop, linkLoop]
  cases hf : findLink input with
  | none => rfl
  | some v =>
    obtain ⟨b, w, r1⟩ := v
    have := findLink_length _ _ _ _ hf
    simp only
    rw [Filter_eq_linkLoop, linkLoop_fuel (input.length + 1) (r1.length + 2) r1 (by omega) (by omega)]

theorem takeWhile_append_of_dropWhile_ne_nil (p : Nat → Bool) (r s : Bytes)
    (h : r.dropWhile p ≠ []) : (r ++ s).takeWhile p = r.takeWhile p := by
  induction r with
  | nil => simp at h
  | cons x xs ih =>
    by_cases hx : p x = true
    · simp only [List.cons_append, List.takeWhile_cons, hx, if_true]
      rw [ih (by simpa [List.dropWhile_cons, hx] using h)]
    · simp [List.takeWhile_cons, hx]

theorem dropWhile_append_of_dropWhile_ne_nil (p : Nat → Bool) (r s : Bytes)
    (h : r.dropWhile p ≠ []) : (r ++ s).dropWhile p = r.dropWhile p ++ s := by
  induction r with
  | nil => simp at h
  | cons x xs ih =>
    by_cases hx : p x = true
    · simp only [List.cons_append, List.dropWhile_cons, hx, if_true]
      rw [ih (by simpa [List.dropWhile_cons, hx] using h)]
    · simp [List.dropWhile_cons, hx]

/-- An anchored attempt that fails on `c :: r` also fails when more input follows, provided
the appended input starts with an opening bracket. -/
theorem linkAt_append_none (c : Nat) (r s : Bytes) (h : linkAt (c :: r) = none) :
    linkAt (c :: (r ++ 91 :: s)) = none := by
  by_cases hd : r.dropWhile isWord = []
  · have hall : ∀ x ∈ r, isWord x = true := List.dropWhile_eq_nil_iff.mp hd
    have h91 : isWord 91 = false := by decide
    have hdw : (r ++ 91 :: s).dropWhile isWord = 91 :: s := by
      rw [List.dropWhile_append_of_pos hall]; simp [List.dropWhile_cons, h91]
    simp [linkAt, hdw]
  · rw [linkAt] at h ⊢
    rw [takeWhile_append_of_dropWhile_ne_nil _ _ _ hd, dropWhile_append_of_dropWhile_ne_nil _ _ _ hd]
    split
    · rename_i hc
      rw [if_pos hc] at h
      cases hdw : r.dropWhile isWord with
      | nil => exact absurd hdw hd
      | cons d r2 =>
        rw [hdw] at h
        simp only [List.cons_append]
        simp only at h
        split
        · rename_i h93
          rw [if_pos h93] at h
          simp at h
        · rfl
    · rfl

theorem findLink_append_group (a w b : Bytes) (hw : w ≠ []) (hc : ∀ c ∈ w, isWord c = true)
    (h : findLink a = none) : findLink (a ++ 91 :: (w ++ 93 :: b)) = some (a, w, b) := by
  induction a with
  | nil =>
    simp only [List.nil_append]
    rw [findLink, linkAt_group w b hw hc]
  | cons c r ih =>
    rw [findLink] at h
    cases hl : linkAt (c :: r) with
    | some v => rw [hl] at h; simp at h
    | none =>
      rw [hl] at h
      cases hf : findLink r with
      | some v => rw [hf] at h; simp at h
      | none =>
        simp only [List.cons_append]
        rw [findLink, linkAt_append_none c r _ hl, ih hf]

theorem findLink_append_some (a x v y s : Bytes) (h : findLink a = some (x, v, y)) :
    findLink (a ++ s) = some (x, v, y ++ s) := by
  induction a generalizing x with
  | nil => simp [findLink] at h
  | cons c r ih =>
    rw [findLink] at h
    cases hl : linkAt (c :: r) with
    | some u =>
      obtain ⟨w1, r2⟩ := u
      rw [hl] at h
      simp only [Option.some.injEq, Prod.mk.injEq] at h
      obtain ⟨hb, hw, hr⟩ := h
      subst hb; subst hw; subst hr
      obtain ⟨h1, h2, h3⟩ := linkAt_some _ _ _ hl
      have e : c :: r ++ s = 91 :: (w1 ++ 93 :: (r2 ++ s)) := by rw [h3]; simp
      rw [e, findLink, linkAt_group w1 (r2 ++ s) h1 h2]
    | none =>
      rw [hl] at h
      cases hf : findLink r with
      | none => rw [hf] at h; simp at h
      | some u =>
        obtain ⟨b1, w1, r2⟩ := u
        rw [hf] at h
        simp only [Option.some.injEq, Prod.mk.injEq] at h
        obtain ⟨hb, hw, hr⟩ := h
        subst hb; subst hw; subst hr
        obtain ⟨_, _, h3⟩ := findLink_some _ _ _ _ hf
        have hne : r.dropWhile isWord ≠ [] := by
          intro hd
          have hall : ∀ x ∈ r, isWord x = true := List.dropWhile_eq_nil_iff.mp hd
          have : isWord 91 = true := hall 91 (by rw [h3]; simp)
          exact absurd this (by decide)
        have hla : linkAt (c :: (r ++ s)) = none := by
          rw [linkAt] at hl ⊢
          rw [takeWhile_append_of_dropWhile_ne_nil _ _ _ hne,
            dropWhile_append_of_dropWhile_ne_nil _ _ _ hne]
          split
          · rename_i hc
            rw [if_pos hc] at hl
            cases hdw : r.dropWhile isWord with
            | nil => exact absurd hdw hne
            | cons d r3 =>
              rw [hdw] at hl
              simp only [List.cons_append]
              simp only at hl
              split
              · rename_i h93
                rw [if_pos h93] at hl
                simp at hl
              · rfl
          · rfl
        simp only [List.cons_append]
        rw [findLink, hla, ih b1 hf]

/-- The input has no bracket group exactly when the scan finds none. -/
theorem findLink_eq_none_iff (b : Bytes) :
    findLink b = none ↔
      ∀ x w y : Bytes, w ≠ [] → (∀ c ∈ w, isWord c = true) → b ≠ x ++ 91 :: (w ++ 93 :: y) := by
  constructor
  · intro h x w y hw hc hb
    subst hb
    cases hx : findLink x with
    | none => rw [findLink_append_group x w y hw hc hx] at h; simp at h
    | some u =>
      obtain ⟨x1, v, y1⟩ := u
      rw [findLink_append_some x x1 v y1 _ hx] at h; simp at h
  · intro h
    cases hf : findLink b with
    | none => rfl
    | some u =>
      obtain ⟨x1, v, y1⟩ := u
      obtain ⟨h1, h2, h3⟩ := findLink_some _ _ _ _ hf
      exact absurd h3 (h x1 v y1 h1 h2)

theorem Filter_nil : Filter [] = [] := by
  rw [Filter_unfold]; rfl

theorem Filter_group_append (w b : Bytes) (hw : w ≠ []) (hc : ∀ c ∈ w, isWord c = true) :
    ∀ (n : Nat) (a : Bytes), a.length ≤ n →
      Filter (a ++ 91 :: (w ++ 93 :: b)) = Filter a ++ link w ++ Filter b := by
  intro n
  induction n with
  | zero =>
    intro a ha
    have : a = [] := List.eq_nil_of_length_eq_zero (Nat.le_zero.mp ha)
    subst this
    rw [Filter_unfold, findLink_append_group [] w b hw hc rfl, Filter_nil]
  | succ k ih =>
    intro a ha
    rw [Filter_unfold a]
    cases hf : findLink a with
    | none =>
      rw [Filter_unfold, findLink_append_group a w b hw hc hf]
    | some u =>
      obtain ⟨x, v, y⟩ := u
      have hlt := findLink_length _ _ _ _ hf
      rw [Filter_unfold (a ++ _), findLink_append_some a x v y _ hf]
      simp only
      rw [ih y (by omega)]
      simp

/-! ## Canonical paths and dispatch -/

theorem splitSlash_of_no_slash (t : Bytes) (h : ∀ c ∈ t, c ≠ 47) : splitSlash t = [t] := by
  induction t with
  | nil => rfl
  | cons x xs ih =>
    have hx : x ≠ 47 := h x (List.mem_cons_self _ _)
    rw [splitSlash, if_neg hx, ih (fun c hc => h c (List.mem_cons_of_mem _ hc))]

theorem isAlnum_ne_slash (c : Nat) (h : isAlnum c = true) : c ≠ 47 := by
  simp only [isAlnum, Bool.or_eq_true, Bool.and_eq_true, decide_eq_true_eq] at h
  omega

theorem isAlnum_ne_dot (c : Nat) (h : isAlnum c = true) : c ≠ 46 := by
  simp only [isAlnum, Bool.or_eq_true, Bool.and_eq_true, decide_eq_true_eq] at h
  omega

theorem splitSlash_append_slash (op rest : Bytes) (h : ∀ c ∈ op, c ≠ 47) :
    splitSlash (op ++ 47 :: rest) = op :: splitSlash rest := by
  induction op with
  | nil => simp [splitSlash]
  | cons x xs ih =>
    have hx : x ≠ 47 := h x (List.mem_cons_self _ _)
    simp only [List.cons_append]
    rw [splitSlash, if_neg hx, ih (fun c hc => h c (List.mem_cons_of_mem _ hc))]

/-- A path of two plain elements is in canonical form. -/
theorem cleanPath_two (op t : Bytes) (hop : ∀ c ∈ op, c ≠ 47 ∧ c ≠ 46) (hop0 : op ≠ [])
    (ht : ∀ c ∈ t, c ≠ 47 ∧ c ≠ 46) (ht0 : t ≠ []) :
    cleanPath (47 :: (op ++ 47 :: t)) = 47 :: (op ++ 47 :: t) := by
  have hsplit : splitSlash (op ++ 47 :: t) = [op, t] := by
    rw [splitSlash_append_slash op t (fun c hc => (hop c hc).1),
      splitSlash_of_no_slash t (fun c hc => (ht c hc).1)]
  have nodot : ∀ e : Bytes, (∀ c ∈ e, c ≠ 47 ∧ c ≠ 46) → e ≠ [] → e ≠ [46] ∧ e ≠ [46, 46] := by
    intro e he he0
    obtain ⟨x, xs, rfl⟩ := List.exists_cons_of_ne_nil he0
    have hx : x ≠ 46 := (he x (List.mem_cons_self _ _)).2
    constructor <;> intro h <;> injection h with h1 _ <;> exact hx h1
  obtain ⟨o1, o2⟩ := nodot op hop hop0
  obtain ⟨t1, t2⟩ := nodot t ht ht0
  have hlast : (47 :: (op ++ 47 :: t)).getLast? ≠ some 47 := by
    intro hl
    have e : (47 :: (op ++ 47 :: t)) = (47 :: (op ++ [47])) ++ t := by simp
    rw [e, List.getLast?_append_of_ne_nil _ ht0] at hl
    exact (ht 47 (List.mem_of_getLast?_eq_some hl)).1 rfl
  have hclean : pathClean (47 :: (op ++ 47 :: t)) = 47 :: (op ++ 47 :: t) := by
    simp [pathClean, hsplit, cleanElems, hop0, ht0, o1, o2, t1, t2, List.intercalate]
  simp only [cleanPath, List.head?_cons, if_true, hclean]
  rw [if_neg (fun h => hlast h.1)]

/-- A well-formed path is in canonical form. -/
theorem cleanPath_wellFormed (p op t : Bytes) (h : WellFormed p op t) : cleanPath p = p := by
  obtain ⟨hop, ht0, htc, hp⟩ := h
  have hp1 : p = 47 :: (op ++ 47 :: t) := by rw [hp]; simp [ascii]
  rw [hp1]
  apply cleanPath_two
  · rcases hop with h | h | h <;> subst h <;> decide
  · rcases hop with h | h | h <;> subst h <;> decide
  · exact fun c hc => ⟨isAlnum_ne_slash c (htc c hc), isAlnum_ne_dot c (htc c hc)⟩
  · exact ht0

section Dispatch

variable (ExecuteTemplate : Bytes → Page → Except Bytes Bytes)

/-- The entries of the `ServeMux` after the four registrations of `main`. -/
theorem mainMux_eq :
    mainMux ExecuteTemplate =
      [⟨ascii "/", true, indexHandler⟩,
        ⟨[], false, RedirectHandler (ascii "/") StatusMovedPermanently⟩,
        ⟨ascii "/view/", true, makeHandler (viewHandler ExecuteTemplate)⟩,
        ⟨ascii "/view", false, RedirectHandler (ascii "/view/") StatusMovedPermanently⟩,
        ⟨ascii "/edit/", true, makeHandler (editHandler ExecuteTemplate)⟩,
        ⟨ascii "/edit", false, RedirectHandler (ascii "/edit/") StatusMovedPermanently⟩,
        ⟨ascii "/save/", true, makeHandler saveHandler⟩,
        ⟨ascii "/save", false, RedirectHandler (ascii "/save/") StatusMovedPermanently⟩] := by
  simp [mainMux, HandleFunc, ascii]

theorem pathMatch_subtree (pat path : Bytes) (h : pat.getLast? = some 47) :
    pathMatch pat path = pat.isPrefixOf path := by
  simp [pathMatch, h]

theorem pathMatch_exact (pat path : Bytes) (c : Nat) (h : pat.getLast? = some c) (hc : c ≠ 47) :
    pathMatch pat path = decide (pat = path) := by
  simp [pathMatch, h, hc]

/-- Dispatch of a path in one of the three page subtrees. -/
theorem muxMatch_subtree (q : Bytes) :
    (muxMatch (mainMux ExecuteTemplate) (ascii "/view/" ++ q)).map (fun e => e.h) =
        some (makeHandler (viewHandler ExecuteTemplate)) ∧
      (muxMatch (mainMux ExecuteTemplate) (ascii "/edit/" ++ q)).map (fun e => e.h) =
        some (makeHandler (editHandler ExecuteTemplate)) ∧
      (muxMatch (mainMux ExecuteTemplate) (ascii "/save/" ++ q)).map (fun e => e.h) =
        some (makeHandler saveHandler) := by
  rw [mainMux_eq]
  refine ⟨?_, ?_, ?_⟩ <;> simp [muxMatch, pathMatch, ascii]

/-- Dispatch of a path outside the three page subtrees: the index handler. -/
theorem muxMatch_index (q : Bytes)
    (hv : ¬ ascii "/view/" <+: 47 :: q) (he : ¬ ascii "/edit/" <+: 47 :: q)
    (hs : ¬ ascii "/save/" <+: 47 :: q)
    (hv1 : 47 :: q ≠ ascii "/view") (he1 : 47 :: q ≠ ascii "/edit") (hs1 : 47 :: q ≠ ascii "/save") :
    (muxMatch (mainMux ExecuteTemplate) (47 :: q)).map (fun e => e.h) = some indexHandler := by
  rw [mainMux_eq]
  have a1 : pathMatch (ascii "/") (47 :: q) = true := by simp [pathMatch, ascii]
  have a2 : pathMatch [] (47 :: q) = false := by simp [pathMatch]
  have a3 : pathMatch (ascii "/view/") (47 :: q) = false := by
    rw [pathMatch_subtree _ _ (by decide)]
    exact Bool.eq_false_iff.mpr (fun h => hv (List.isPrefixOf_iff_prefix.mp h))
  have a4 : pathMatch (ascii "/view") (47 :: q) = false := by
    rw [pathMatch_exact _ _ 119 (by decide) (by decide)]
    exact decide_eq_false (fun h => hv1 h.symm)
  have a5 : pathMatch (ascii "/edit/") (47 :: q) = false := by
    rw [pathMatch_subtree _ _ (by decide)]
    exact Bool.eq_false_iff.mpr (fun h => he (List.isPrefixOf_iff_prefix.mp h))
  have a6 : pathMatch (ascii "/edit") (47 :: q) = false := by
    rw [pathMatch_exact _ _ 116 (by decide) (by decide)]
    exact decide_eq_false (fun h => he1 h.symm)
  have a7 : pathMatch (ascii "/save/") (47 :: q) = false := by
    rw [pathMatch_subtree _ _ (by decide)]
    exact Bool.eq_false_iff.mpr (fun h => hs (List.isPrefixOf_iff_prefix.mp h))
  have a8 : pathMatch (ascii "/save") (47 :: q) = false := by
    rw [pathMatch_exact _ _ 101 (by decide) (by decide)]
    exact decide_eq_false (fun h => hs1 h.symm)
  simp [muxMatch, a1, a2, a3, a4, a5, a6, a7, a8]

theorem cleanPath_head (p : Bytes) (h : cleanPath p = p) : ∃ q, p = 47 :: q := by
  cases p with
  | nil => simp [cleanPath] at h
  | cons c r =>
    by_cases hc : c = 47
    · exact ⟨r, by rw [hc]⟩
    · exfalso
      simp only [cleanPath, List.head?_cons, Option.some.injEq, hc, if_false, pathClean] at h
      split at h <;> simp at h <;> exact hc h.1.symm

/-- A request for a well-formed path reaches the handler made by `makeHandler` for its
operation, which is called with the title. -/
theorem serve_wellFormed (st : Store) (p op t : Bytes) (form : List (Bytes × Bytes))
    (h : WellFormed p op t) :
    serve ExecuteTemplate st ⟨p, form⟩ =
      (if op = ascii "view" then viewHandler ExecuteTemplate st ⟨p, form⟩ t
       else if op = ascii "edit" then editHandler ExecuteTemplate st ⟨p, form⟩ t
       else saveHandler st ⟨p, form⟩ t) := by
  have hclean := cleanPath_wellFormed p op t h
  have hfind := validPath_complete p op t h
  obtain ⟨hop, ht0, htc, hp⟩ := h
  obtain ⟨m1, m2, m3⟩ := muxMatch_subtree ExecuteTemplate t
  have hnot : ¬ cleanPath p ≠ p := fun hh => hh hclean
  simp only [serve, ServeHTTP]
  rw [if_neg hnot]
  rcases hop with h | h | h <;> subst h
  · have e : p = ascii "/edit/" ++ t := by rw [hp]; simp [ascii]
    rw [e] at hfind ⊢
    cases hm : muxMatch (mainMux ExecuteTemplate) (ascii "/edit/" ++ t) with
    | none => rw [hm] at m2; simp at m2
    | some en =>
      rw [hm] at m2
      simp only [Option.map_some', Option.some.injEq] at m2
      simp only [m2, makeHandler, hfind]
      rfl
  · have e : p = ascii "/save/" ++ t := by rw [hp]; simp [ascii]
    rw [e] at hfind ⊢
    cases hm : muxMatch (mainMux ExecuteTemplate) (ascii "/save/" ++ t) with
    | none => rw [hm] at m3; simp at m3
    | some en =>
      rw [hm] at m3
      simp only [Option.map_some', Option.some.injEq] at m3
      simp only [m3, makeHandler, hfind]
      rfl
  · have e : p = ascii "/view/" ++ t := by rw [hp]; simp [ascii]
    rw [e] at hfind ⊢
    cases hm : muxMatch (mainMux ExecuteTemplate) (ascii "/view/" ++ t) with
    | none => rw [hm] at m1; simp at m1
    | some en =>
      rw [hm] at m1
      simp only [Option.map_some', Option.some.injEq] at m1
      simp only [m1, makeHandler, hfind]
      rfl

end Dispatch

/-! ## Properties of the program -/

/-- C1: a request path matches `validPath` exactly when it is `/`, one of the operation names
`edit`, `save`, `view`, `/`, and a non-empty title of ASCII letters and digits, with nothing
before or after. On such a path the match consists of the path, the operation name (first
group) and the title (second group); `getTitle` returns the title and `makeHandler` calls the
wrapped handler with it. On any other path `makeHandler` answers "not found" and does not call
the handler. `/view/Foo123` gives the title `Foo123`; `/view/`, `/view/Foo Bar` and
`/delete/Foo` are rejected. -/
theorem validPath_accepts_exactly_wellFormed :
    (∀ p : Bytes, (∃ m, FindStringSubmatch validPath p = some m) ↔ ∃ op t, WellFormed p op t) ∧
    (∀ p op t : Bytes, WellFormed p op t →
      FindStringSubmatch validPath p = some [p, op, t] ∧
      (∀ form, getTitle ⟨p, form⟩ = (none, t, none)) ∧
      (∀ (fn : Handler) (st : Store) form, makeHandler fn st ⟨p, form⟩ = fn st ⟨p, form⟩ t)) ∧
    (∀ p : Bytes, (¬ ∃ op t, WellFormed p op t) →
      FindStringSubmatch validPath p = none ∧
      (∀ form, getTitle ⟨p, form⟩ = (some NotFound, [], some (ascii "Invalid Page Title"))) ∧
      (∀ (fn : Handler) (st : Store) form, makeHandler fn st ⟨p, form⟩ = (NotFound, st))) ∧
    FindStringSubmatch validPath (ascii "/view/Foo123") =
      some [ascii "/view/Foo123", ascii "view", ascii "Foo123"] ∧
    FindStringSubmatch validPath (ascii "/view/") = none ∧
    FindStringSubmatch validPath (ascii "/view/Foo Bar") = none ∧
    FindStringSubmatch validPath (ascii "/delete/Foo") = none := by
  have hnone : ∀ p : Bytes, (¬ ∃ op t, WellFormed p op t) → FindStringSubmatch validPath p = none := by
    intro p hp
    cases hm : FindStringSubmatch validPath p with
    | none => rfl
    | some m => exact absurd (validPath_sound p m hm) hp
  refine ⟨?_, ?_, ?_, ?_, ?_, ?_, ?_⟩
  · intro p
    constructor
    · rintro ⟨m, hm⟩
      exact validPath_sound p m hm
    · rintro ⟨op, t, h⟩
      exact ⟨_, validPath_complete p op t h⟩
  · intro p op t h
    have hm := validPath_complete p op t h
    refine ⟨hm, ?_, ?_⟩
    · intro form
      simp [getTitle, hm]
    · intro fn st form
      simp [makeHandler, hm]
  · intro p hp
    have hm := hnone p hp
    refine ⟨hm, ?_, ?_⟩
    · intro form
      simp [getTitle, hm]
    · intro fn st form
      simp [makeHandler, hm]
  · exact validPath_complete _ _ _ ⟨Or.inr (Or.inr rfl), by decide, by decide, rfl⟩
  · decide
  · decide
  · decide

/-- Witness for C1: the path `/edit/Home` is well-formed, so it matches with the groups `edit` and `Home`. -/
theorem validPath_accepts_exactly_wellFormed_witness :
    WellFormed (ascii "/edit/Home") (ascii "edit") (ascii "Home") ∧
      FindStringSubmatch validPath (ascii "/edit/Home") =
        some [ascii "/edit/Home", ascii "edit", ascii "Home"] :=
  ⟨⟨Or.inl rfl, by decide, by decide, rfl⟩,
    (validPath_accepts_exactly_wellFormed.2.1 _ _ _ ⟨Or.inl rfl, by decide, by decide, rfl⟩).1⟩

theorem isWord_of_isWordByte (w : Bytes) (hc : ∀ c ∈ w, isWordByte c = true) :
    ∀ c ∈ w, isWord c = true :=
  fun c h => by rw [isWord_eq]; exact hc c h

/-- C2: for every non-empty sequence `w` of word bytes (ASCII letters, digits, underscore),
`Filter` applied to `[w]` returns exactly the anchor `<a href="/view/w">w</a>`. -/
theorem Filter_single_group (w : Bytes) (hw : w ≠ []) (hc : ∀ c ∈ w, isWordByte c = true) :
    Filter (ascii "[" ++ w ++ ascii "]") =
      ascii "<a href=\"/view/" ++ w ++ ascii "\">" ++ w ++ ascii "</a>" := by
  have h := Filter_group_append w [] hw (isWord_of_isWordByte w hc) 0 [] (Nat.le_refl _)
  rw [Filter_nil] at h
  simpa [link, ascii] using h

/-- Witness for C2: the word `World`. -/
theorem Filter_single_group_witness :
    Filter (ascii "[" ++ ascii "World" ++ ascii "]") =
      ascii "<a href=\"/view/" ++ ascii "World" ++ ascii "\">" ++ ascii "World" ++ ascii "</a>" :=
  Filter_single_group (ascii "World") (by decide) (by decide)

/-- C8: `Filter` replaces every bracket group and does not scan its own output again: for all
byte sequences `a` and `b` and every non-empty sequence `w` of word bytes, the result on
`a ++ [w] ++ b` is the result on `a`, then the anchor for `w`, then the result on `b`. -/
theorem Filter_distributes_over_group (a b w : Bytes) (hw : w ≠ [])
    (hc : ∀ c ∈ w, isWordByte c = true) :
    Filter (a ++ ascii "[" ++ w ++ ascii "]" ++ b) =
      Filter a ++ (ascii "<a href=\"/view/" ++ w ++ ascii "\">" ++ w ++ ascii "</a>") ++
        Filter b := by
  have h := Filter_group_append w b hw (isWord_of_isWordByte w hc) a.length a (Nat.le_refl _)
  simpa [link, ascii] using h

/-- Witness for C8: two groups in one input, `[a]` followed by `[b]`. -/
theorem Filter_distributes_over_group_witness :
    Filter (ascii "x[a]" ++ ascii "[" ++ ascii "b" ++ ascii "]" ++ ascii "y") =
      Filter (ascii "x[a]") ++
        (ascii "<a href=\"/view/" ++ ascii "b" ++ ascii "\">" ++ ascii "b" ++ ascii "</a>") ++
        Filter (ascii "y") :=
  Filter_distributes_over_group (ascii "x[a]") (ascii "y") (ascii "b") (by decide) (by decide)

/-- C9: for every byte sequence `b` with no bracket group (no part made of `[`, one or more
word bytes, `]`), `Filter b = b`; so `<`, `>`, `&` and quotes come back as they are. -/
theorem Filter_without_group (b : Bytes)
    (h : ∀ x w y : Bytes, w ≠ [] → (∀ c ∈ w, isWordByte c = true) →
      b ≠ x ++ ascii "[" ++ w ++ ascii "]" ++ y) :
    Filter b = b := by
  have hf : findLink b = none := by
    rw [findLink_eq_none_iff]
    intro x w y hw hc hb
    apply h x w y hw (fun c hcw => by rw [← isWord_eq]; exact hc c hcw)
    rw [hb]; simp [ascii]
  rw [Filter_unfold, hf]

/-- Witness for C9: an input with markup, an ampersand, quotes and brackets that enclose no word. -/
theorem Filter_without_group_witness :
    (∀ x w y : Bytes, w ≠ [] → (∀ c ∈ w, isWordByte c = true) →
      ascii "<b>R&D</b> \"q\" [] [a b]" ≠ x ++ ascii "[" ++ w ++ ascii "]" ++ y) ∧
    Filter (ascii "<b>R&D</b> \"q\" [] [a b]") = ascii "<b>R&D</b> \"q\" [] [a b]" :=
  have h : ∀ x w y : Bytes, w ≠ [] → (∀ c ∈ w, isWordByte c = true) →
      ascii "<b>R&D</b> \"q\" [] [a b]" ≠ x ++ ascii "[" ++ w ++ ascii "]" ++ y := by
    intro x w y hw hc
    have h0 := (findLink_eq_none_iff (ascii "<b>R&D</b> \"q\" [] [a b]")).mp (by decide) x w y hw
      (isWord_of_isWordByte w hc)
    simpa [ascii] using h0
  ⟨h, Filter_without_group _ h⟩

theorem read_after_write (st : Store) (name data : Bytes) (hfile : Storable st name)
    (h : (WriteFile st name data 0o600).1 = none) :
    ReadFile (WriteFile st name data 0o600).2 name = .ok data := by
  obtain ⟨slot, hw, hcase⟩ := hfile
  simp only [WriteFile, hw] at h ⊢
  rcases hcase with ⟨i, w, old, hb, hi⟩ | ⟨hb, hc⟩
  · simp only [hb, hi] at h ⊢
    cases w with
    | false => simp at h
    | true => simp [ReadFile, Store.written, hw, hb]
  · simp only [hb] at h ⊢
    cases hcr : st.create slot 0o600 with
    | error e => rw [hcr] at h; simp at h
    | ok rights =>
      have hr := hc rights hcr
      simp [ReadFile, Store.created, hw, hr]

theorem read_frame (st : Store) (name name1 data : Bytes) (perm : Nat)
    (hap : Apart st name name1) :
    ReadFile (WriteFile st name data perm).2 name1 = ReadFile st name1 := by
  simp only [WriteFile]
  cases hw : st.walk name with
  | error e => rfl
  | ok slot =>
    simp only
    cases hb : st.bound slot with
    | some i =>
      simp only
      cases hi : st.inode i with
      | special rd wr => rfl
      | regular r w old =>
        cases w with
        | false => rfl
        | true =>
          simp only [ReadFile, Store.written]
          cases hw1 : st.walk name1 with
          | error e => rfl
          | ok slot1 =>
            simp only
            cases hb1 : st.bound slot1 with
            | none => rfl
            | some j =>
              have hne : j ≠ i := by
                intro hji
                exact (hap slot slot1 hw hw1).2 i hb (by rw [hb1, hji])
              simp only [if_neg hne]
    | none =>
      simp only
      cases hcr : st.create slot perm with
      | error e => rfl
      | ok rights =>
        simp only [ReadFile, Store.created]
        cases hw1 : st.walk name1 with
        | error e => rfl
        | ok slot1 =>
          have hs : slot1 ≠ slot := fun h => (hap slot slot1 hw hw1).1 h.symm
          simp only [if_neg hs]
          cases hb1 : st.bound slot1 with
          | none => rfl
          | some j =>
            have hlt := st.fresh slot1 j hb1
            have hne : j ≠ st.next := by omega
            simp only [if_neg hne]

theorem open_after_save (st : Store) (t b d : Bytes)
    (hfile : Storable st (ascii "pages/" ++ t ++ ascii ".txt"))
    (h : (Page.save ⟨t, b, d⟩ st).1 = none) :
    «open» (Page.save ⟨t, b, d⟩ st).2 t = .ok ⟨t, b, []⟩ := by
  have key := read_after_write st _ b hfile h
  simp only [«open», Page.save] at key ⊢
  rw [key]

theorem open_frame (st : Store) (t t1 b d : Bytes)
    (hap : Apart st (ascii "pages/" ++ t ++ ascii ".txt") (ascii "pages/" ++ t1 ++ ascii ".txt")) :
    «open» (Page.save ⟨t, b, d⟩ st).2 t1 = «open» st t1 := by
  have key := read_frame st _ _ b 0o600 hap
  simp only [«open», Page.save] at key ⊢
  rw [key]

theorem pageFile_injective (t t1 : Bytes)
    (h : ascii "pages/" ++ t ++ ascii ".txt" = ascii "pages/" ++ t1 ++ ascii ".txt") : t = t1 := by
  rw [List.append_assoc, List.append_assoc] at h
  exact List.append_cancel_right (List.append_cancel_left h)

/-- Counterexample to C3 as stated: when `pages/Test.txt` is a symbolic link to `/dev/null`,
saving the body `new` under `Test` succeeds, and `open` then returns, without error, a page
with the empty body and not the body that was saved. -/
theorem save_succeeds_but_open_gives_empty_body :
    (Page.save ⟨ascii "Test", ascii "new", []⟩ sinkStore).1 = none ∧
    «open» (Page.save ⟨ascii "Test", ascii "new", []⟩ sinkStore).2 (ascii "Test") =
      .ok ⟨ascii "Test", [], []⟩ ∧
    «open» (Page.save ⟨ascii "Test", ascii "new", []⟩ sinkStore).2 (ascii "Test") ≠
      .ok ⟨ascii "Test", ascii "new", []⟩ := by
  refine ⟨rfl, rfl, ?_⟩
  intro h
  rw [show «open» (Page.save ⟨ascii "Test", ascii "new", []⟩ sinkStore).2 (ascii "Test") =
    .ok ⟨ascii "Test", [], []⟩ from rfl] at h
  injection h with h
  exact absurd h (by decide)

/-- C3 as amended: for every title `t` and body `b` and every store in which `pages/t.txt`
leads to a regular file the server may read, or to nothing at a place where a file created
with mode 0600 is readable by the server: if saving a page with title `t` and body `b`
succeeds, then `open t` on the resulting store returns, without error, the page with title
`t`, body `b` and empty `DisplayBody`, whatever the file held before. -/
theorem save_then_open (st : Store) (t b d : Bytes)
    (hfile : Storable st (ascii "pages/" ++ t ++ ascii ".txt"))
    (h : (Page.save ⟨t, b, d⟩ st).1 = none) :
    «open» (Page.save ⟨t, b, d⟩ st).2 t = .ok ⟨t, b, []⟩ :=
  open_after_save st t b d hfile h

theorem storable_fullStore : Storable fullStore (ascii "pages/" ++ ascii "Test" ++ ascii ".txt") :=
  ⟨ascii "pages/Test.txt", rfl, Or.inl ⟨0, true, ascii "old", rfl, rfl⟩⟩

theorem storable_emptyStore (name : Bytes) : Storable emptyStore name :=
  ⟨pathClean name, rfl, Or.inr ⟨rfl, fun rights h => by
    have e : rights = (true, true) := by
      have : (Except.ok (true, true) : Except FsError (Bool × Bool)) = Except.ok rights := h
      injection this with this
      exact this.symm
    rw [e]⟩⟩

/-- Witness for C3 as amended: saving `new` under `Test` over the regular file with the content `old`. -/
theorem save_then_open_witness :
    Storable fullStore (ascii "pages/" ++ ascii "Test" ++ ascii ".txt") ∧
    (Page.save ⟨ascii "Test", ascii "new", []⟩ fullStore).1 = none ∧
      «open» (Page.save ⟨ascii "Test", ascii "new", []⟩ fullStore).2 (ascii "Test") =
        .ok ⟨ascii "Test", ascii "new", []⟩ :=
  ⟨storable_fullStore, rfl,
    save_then_open fullStore (ascii "Test") (ascii "new") [] storable_fullStore rfl⟩

/-- Counterexample to C10 as stated: `A` and `B` are different titles, and when `pages/A.txt`
and `pages/B.txt` are hard links to one file, saving `new` under `A` changes what `open`
returns for `B` from the body `old` to the body `new`. -/
theorem save_changes_linked_title :
    ascii "A" ≠ ascii "B" ∧
    «open» linkedStore (ascii "B") = .ok ⟨ascii "B", ascii "old", []⟩ ∧
    «open» (Page.save ⟨ascii "A", ascii "new", []⟩ linkedStore).2 (ascii "B") =
      .ok ⟨ascii "B", ascii "new", []⟩ ∧
    «open» (Page.save ⟨ascii "A", ascii "new", []⟩ linkedStore).2 (ascii "B") ≠
      «open» linkedStore (ascii "B") := by
  refine ⟨by decide, rfl, rfl, ?_⟩
  intro h
  rw [show «open» (Page.save ⟨ascii "A", ascii "new", []⟩ linkedStore).2 (ascii "B") =
    .ok ⟨ascii "B", ascii "new", []⟩ from rfl,
    show «open» linkedStore (ascii "B") = .ok ⟨ascii "B", ascii "old", []⟩ from rfl] at h
  injection h with h
  exact absurd h (by decide)

/-- C10 as amended: the mapping from a title to its file name `pages/<title>.txt`, used by
`save` and `open`, is injective. For titles `t` and `t'` whose file names lead to different
files (not to one directory entry, and not to entries bound to one file) and every body,
saving under `t` leaves the result of `open t'`, a page or an error, as it was before the
save, whether the save succeeds or fails. -/
theorem save_leaves_other_files :
    Function.Injective (fun t : Bytes => ascii "pages/" ++ t ++ ascii ".txt") ∧
    ∀ (st : Store) (t t' b d : Bytes),
      Apart st (ascii "pages/" ++ t ++ ascii ".txt") (ascii "pages/" ++ t' ++ ascii ".txt") →
      «open» (Page.save ⟨t, b, d⟩ st).2 t' = «open» st t' :=
  ⟨fun t t1 h => pageFile_injective t t1 h, fun st t t' b d hap => open_frame st t t' b d hap⟩

theorem apart_fullStore :
    Apart fullStore (ascii "pages/" ++ ascii "Test" ++ ascii ".txt")
      (ascii "pages/" ++ ascii "Other" ++ ascii ".txt") := by
  intro slot slot1 h h1
  have e : slot = ascii "pages/Test.txt" := by
    have : (Except.ok (ascii "pages/Test.txt") : Except FsError Bytes) = Except.ok slot := h
    injection this with this
    exact this.symm
  have e1 : slot1 = ascii "pages/Other.txt" := by
    have : (Except.ok (ascii "pages/Other.txt") : Except FsError Bytes) = Except.ok slot1 := h1
    injection this with this
    exact this.symm
  subst e; subst e1
  refine ⟨by decide, fun i _ => ?_⟩
  show (none : Option Nat) ≠ some i
  exact fun h => Option.noConfusion h

/-- Witness for C10 as amended: in the store whose one file is `pages/Test.txt`, saving under
`Test` leaves `open Other` as it was. -/
theorem save_leaves_other_files_witness :
    Apart fullStore (ascii "pages/" ++ ascii "Test" ++ ascii ".txt")
      (ascii "pages/" ++ ascii "Other" ++ ascii ".txt") ∧
    «open» (Page.save ⟨ascii "Test", ascii "new", []⟩ fullStore).2 (ascii "Other") =
      «open» fullStore (ascii "Other") :=
  ⟨apart_fullStore,
    save_leaves_other_files.2 fullStore (ascii "Test") (ascii "Other") (ascii "new") []
      apart_fullStore⟩

section HandlerClaims

variable (ExecuteTemplate : Bytes → Page → Except Bytes Bytes)

theorem render_ok (name : Bytes) (p : Page) (html : Bytes)
    (h : ExecuteTemplate name p = .ok html) : render ExecuteTemplate name p = .written html := by
  simp [render, h]

theorem render_error (name : Bytes) (p : Page) (err : Bytes)
    (h : ExecuteTemplate name p = .error err) :
    render ExecuteTemplate name p = .error err 500 := by
  simp [render, h, StatusInternalServerError]

theorem viewHandler_of_open_error (st : Store) (r : Request) (t : Bytes) (e : FsError)
    (h : «open» st t = .error e) :
    viewHandler ExecuteTemplate st r t = (.redirect (ascii "/edit/" ++ t) 302, st) := by
  simp [viewHandler, h, StatusFound]

theorem editHandler_of_open_error (st : Store) (r : Request) (t : Bytes) (e : FsError)
    (h : «open» st t = .error e) :
    editHandler ExecuteTemplate st r t =
      (render ExecuteTemplate (ascii "edit.html") ⟨t, [], []⟩, st) := by
  simp [editHandler, h]

theorem open_absent (st : Store) (t : Bytes)
    (h : Absent st (ascii "pages/" ++ t ++ ascii ".txt")) :
    ∃ e, «open» st t = .error e ∧ e.notExist = true := by
  rcases h with ⟨slot, hw, hb⟩ | ⟨e, hw, he⟩
  · simp only [«open», ReadFile, hw, hb]
    exact ⟨_, rfl, rfl⟩
  · simp only [«open», ReadFile, hw]
    exact ⟨e, rfl, he⟩

/-- C6: for every valid title `t` with no stored content, the view handler answers with a 302
redirect to `/edit/t` and leaves the store as it was, and the edit handler executes the
template `edit.html` on the page with title `t`, empty body and empty `DisplayBody`, without
filtering: what the template writes is sent with status 200, and an error of the template is
sent as status 500. Both hold for the handlers called directly and for the requests `/view/t`
and `/edit/t` sent to the server, and the store is left as it was. -/
theorem view_and_edit_of_missing_page (st : Store) (r : Request) (t : Bytes)
    (form : List (Bytes × Bytes))
    (ht : t ≠ [] ∧ ∀ c ∈ t, isAlnum c = true)
    (hmiss : Absent st (ascii "pages/" ++ t ++ ascii ".txt")) :
    viewHandler ExecuteTemplate st r t = (.redirect (ascii "/edit/" ++ t) 302, st) ∧
    serve ExecuteTemplate st ⟨ascii "/view/" ++ t, form⟩ =
      (.redirect (ascii "/edit/" ++ t) 302, st) ∧
    (∀ html, ExecuteTemplate (ascii "edit.html") ⟨t, [], []⟩ = .ok html →
      editHandler ExecuteTemplate st r t = (.written html, st) ∧
      serve ExecuteTemplate st ⟨ascii "/edit/" ++ t, form⟩ = (.written html, st) ∧
      (serve ExecuteTemplate st ⟨ascii "/edit/" ++ t, form⟩).1.status = 200) ∧
    (∀ err, ExecuteTemplate (ascii "edit.html") ⟨t, [], []⟩ = .error err →
      editHandler ExecuteTemplate st r t = (.error err 500, st) ∧
      serve ExecuteTemplate st ⟨ascii "/edit/" ++ t, form⟩ = (.error err 500, st)) := by
  obtain ⟨e, he, _⟩ := open_absent st t hmiss
  have hv : ∀ r, viewHandler ExecuteTemplate st r t = (.redirect (ascii "/edit/" ++ t) 302, st) :=
    fun r => viewHandler_of_open_error ExecuteTemplate st r t e he
  have hed : ∀ r, editHandler ExecuteTemplate st r t =
      (render ExecuteTemplate (ascii "edit.html") ⟨t, [], []⟩, st) :=
    fun r => editHandler_of_open_error ExecuteTemplate st r t e he
  have hsv : serve ExecuteTemplate st ⟨ascii "/view/" ++ t, form⟩ =
      (.redirect (ascii "/edit/" ++ t) 302, st) := by
    rw [serve_wellFormed ExecuteTemplate st _ (ascii "view") t form
      ⟨Or.inr (Or.inr rfl), ht.1, ht.2, by simp [ascii]⟩, if_pos rfl]
    exact hv _
  have hse : serve ExecuteTemplate st ⟨ascii "/edit/" ++ t, form⟩ =
      (render ExecuteTemplate (ascii "edit.html") ⟨t, [], []⟩, st) := by
    rw [serve_wellFormed ExecuteTemplate st _ (ascii "edit") t form
      ⟨Or.inl rfl, ht.1, ht.2, by simp [ascii]⟩, if_neg (by decide), if_pos rfl]
    exact hed _
  refine ⟨hv r, hsv, ?_, ?_⟩
  · intro html hh
    rw [hed r, hse, render_ok ExecuteTemplate _ _ html hh]
    exact ⟨rfl, rfl, rfl⟩
  · intro err hh
    rw [hed r, hse, render_error ExecuteTemplate _ _ err hh]
    exact ⟨rfl, rfl⟩

end HandlerClaims

theorem absent_emptyStore (name : Bytes) : Absent emptyStore name :=
  Or.inl ⟨pathClean name, rfl, rfl⟩

/-- Witness for C6: the title `NoSuchPage` on a store without files; the edit form that is
sent is what the template wrote for the blank page. -/
theorem view_and_edit_of_missing_page_witness :
    Absent emptyStore (ascii "pages/" ++ ascii "NoSuchPage" ++ ascii ".txt") ∧
    serve plainTemplates emptyStore ⟨ascii "/view/" ++ ascii "NoSuchPage", []⟩ =
      (.redirect (ascii "/edit/" ++ ascii "NoSuchPage") 302, emptyStore) ∧
    serve plainTemplates emptyStore ⟨ascii "/edit/" ++ ascii "NoSuchPage", []⟩ =
      (.written (ascii "edit.html\nNoSuchPage\n\n"), emptyStore) :=
  have h := view_and_edit_of_missing_page plainTemplates emptyStore ⟨[], []⟩ (ascii "NoSuchPage")
    [] ⟨by decide, by decide⟩ (absent_emptyStore _)
  ⟨absent_emptyStore _, h.2.1, (h.2.2.1 (ascii "edit.html\nNoSuchPage\n\n") rfl).2.1⟩

section ServerClaims

variable (ExecuteTemplate : Bytes → Page → Except Bytes Bytes)

theorem saveHandler_of_success (st : Store) (r : Request) (t : Bytes)
    (h : (Page.save ⟨t, r.FormValue (ascii "body"), []⟩ st).1 = none) :
    saveHandler st r t =
      (.redirect (ascii "/view/" ++ t) 302,
        (Page.save ⟨t, r.FormValue (ascii "body"), []⟩ st).2) := by
  simp only [saveHandler]
  cases hs : Page.save ⟨t, r.FormValue (ascii "body"), []⟩ st with
  | mk err st1 =>
    rw [hs] at h
    simp only at h
    subst h
    rfl

theorem viewHandler_of_open_ok (st : Store) (r : Request) (t : Bytes) (p : Page)
    (h : «open» st t = .ok p) :
    viewHandler ExecuteTemplate st r t =
      (render ExecuteTemplate (ascii "view.html") ⟨p.Title, p.Body, Filter p.Body⟩, st) := by
  simp [viewHandler, h]

/-- C4 as amended: end to end over the store. For every valid title `t`, submitted form body
`b` and store in which `pages/t.txt` leads to a regular file the server may read, or to
nothing at a place where a file created with mode 0600 is readable by the server: when the
write of the save handler succeeds, the request `/save/t` is answered with a 302 redirect to
`/view/t`, and a following request `/view/t` executes the template `view.html` on the page
with title `t`, body `b` and `DisplayBody = Filter b`; what the template writes is sent with
status 200, and an error of the template is sent as status 500. For `b = Hello [World]` the
display body is `Hello <a href="/view/World">World</a>`, which contains the anchor for
`World`. -/
theorem save_then_view (st : Store) (t b : Bytes) (form form2 : List (Bytes × Bytes))
    (ht : t ≠ [] ∧ ∀ c ∈ t, isAlnum c = true)
    (hb : (⟨ascii "/save/" ++ t, form⟩ : Request).FormValue (ascii "body") = b)
    (hfile : Storable st (ascii "pages/" ++ t ++ ascii ".txt"))
    (hok : (Page.save ⟨t, b, []⟩ st).1 = none) :
    serve ExecuteTemplate st ⟨ascii "/save/" ++ t, form⟩ =
      (.redirect (ascii "/view/" ++ t) 302, (Page.save ⟨t, b, []⟩ st).2) ∧
    (∀ html, ExecuteTemplate (ascii "view.html") ⟨t, b, Filter b⟩ = .ok html →
      serve ExecuteTemplate (Page.save ⟨t, b, []⟩ st).2 ⟨ascii "/view/" ++ t, form2⟩ =
        (.written html, (Page.save ⟨t, b, []⟩ st).2) ∧
      (serve ExecuteTemplate (Page.save ⟨t, b, []⟩ st).2
        ⟨ascii "/view/" ++ t, form2⟩).1.status = 200) ∧
    (∀ err, ExecuteTemplate (ascii "view.html") ⟨t, b, Filter b⟩ = .error err →
      serve ExecuteTemplate (Page.save ⟨t, b, []⟩ st).2 ⟨ascii "/view/" ++ t, form2⟩ =
        (.error err 500, (Page.save ⟨t, b, []⟩ st).2)) ∧
    Filter (ascii "Hello [World]") = ascii "Hello <a href=\"/view/World\">World</a>" ∧
    ascii "<a href=\"/view/World\">World</a>" <:+: Filter (ascii "Hello [World]") := by
  have hfil : Filter (ascii "Hello [World]") = ascii "Hello <a href=\"/view/World\">World</a>" := by
    decide
  have hview : serve ExecuteTemplate (Page.save ⟨t, b, []⟩ st).2 ⟨ascii "/view/" ++ t, form2⟩ =
      (render ExecuteTemplate (ascii "view.html") ⟨t, b, Filter b⟩, (Page.save ⟨t, b, []⟩ st).2) := by
    rw [serve_wellFormed ExecuteTemplate _ _ (ascii "view") t form2
      ⟨Or.inr (Or.inr rfl), ht.1, ht.2, by simp [ascii]⟩, if_pos rfl]
    exact viewHandler_of_open_ok ExecuteTemplate _ _ t ⟨t, b, []⟩
      (open_after_save st t b [] hfile hok)
  refine ⟨?_, ?_, ?_, hfil, ?_⟩
  · rw [serve_wellFormed ExecuteTemplate st _ (ascii "save") t form
      ⟨Or.inr (Or.inl rfl), ht.1, ht.2, by simp [ascii]⟩, if_neg (by decide), if_neg (by decide)]
    subst hb
    exact saveHandler_of_success st _ t hok
  · intro html hh
    rw [hview, render_ok ExecuteTemplate _ _ html hh]
    exact ⟨rfl, rfl⟩
  · intro err hh
    rw [hview, render_error ExecuteTemplate _ _ err hh]
  · rw [hfil]
    exact ⟨ascii "Hello ", [], by decide⟩

/-- C7 as amended: in the view handler every load failure, not-found or any other read error,
is turned into a 302 redirect to `/edit/t`; the store is left as it was and no server error
is sent. -/
theorem view_redirects_on_every_load_failure (st : Store) (r : Request) (t : Bytes) (e : FsError)
    (h : «open» st t = .error e) :
    viewHandler ExecuteTemplate st r t = (.redirect (ascii "/edit/" ++ t) 302, st) ∧
      (viewHandler ExecuteTemplate st r t).1.status ≠ 500 := by
  have hv := viewHandler_of_open_error ExecuteTemplate st r t e h
  rw [hv]
  exact ⟨rfl, by simp [Response.status]⟩

/-- C5 as amended: how the server of `main` answers the paths that do not match `validPath`.
A path in canonical form inside one of the subtrees `/view/`, `/edit/`, `/save/` that does not
match gets status 404. A path in canonical form outside the three subtrees and different from
`/view`, `/edit`, `/save` is answered by the index handler: status 200 with the fixed greeting;
this holds for `/` and also for `/nonsense`. -/
theorem serve_unmatched_path (st : Store) (r : Request)
    (hclean : cleanPath r.Path = r.Path)
    (hno : FindStringSubmatch validPath r.Path = none) :
    ((ascii "/view/" <+: r.Path ∨ ascii "/edit/" <+: r.Path ∨ ascii "/save/" <+: r.Path) →
      serve ExecuteTemplate st r = (NotFound, st) ∧ (serve ExecuteTemplate st r).1.status = 404) ∧
    (¬ (ascii "/view/" <+: r.Path ∨ ascii "/edit/" <+: r.Path ∨ ascii "/save/" <+: r.Path) →
      r.Path ≠ ascii "/view" → r.Path ≠ ascii "/edit" → r.Path ≠ ascii "/save" →
      serve ExecuteTemplate st r = (.written (ascii "Hello wiki!"), st) ∧
        (serve ExecuteTemplate st r).1.status = 200) ∧
    serve ExecuteTemplate st ⟨ascii "/", r.Form⟩ = (.written (ascii "Hello wiki!"), st) ∧
    serve ExecuteTemplate st ⟨ascii "/nonsense", r.Form⟩ = (.written (ascii "Hello wiki!"), st) := by
  have hnot : ¬ cleanPath r.Path ≠ r.Path := fun hh => hh hclean
  have hidx : ∀ q : Bytes, cleanPath (47 :: q) = 47 :: q →
      ¬ ascii "/view/" <+: 47 :: q → ¬ ascii "/edit/" <+: 47 :: q → ¬ ascii "/save/" <+: 47 :: q →
      47 :: q ≠ ascii "/view" → 47 :: q ≠ ascii "/edit" → 47 :: q ≠ ascii "/save" →
      ∀ form, serve ExecuteTemplate st ⟨47 :: q, form⟩ = (.written (ascii "Hello wiki!"), st) := by
    intro q hc hv he hs hv1 he1 hs1 form
    have hm := muxMatch_index ExecuteTemplate q hv he hs hv1 he1 hs1
    simp only [serve, ServeHTTP]
    rw [if_neg (fun hh => hh hc)]
    cases hmm : muxMatch (mainMux ExecuteTemplate) (47 :: q) with
    | none => rw [hmm] at hm; simp at hm
    | some en =>
      rw [hmm] at hm
      simp only [Option.map_some', Option.some.injEq] at hm
      simp only [hm]
      rfl
  refine ⟨?_, ?_, ?_, ?_⟩
  · intro hpre
    have key : serve ExecuteTemplate st r = (NotFound, st) := by
      simp only [serve, ServeHTTP]
      rw [if_neg hnot]
      rcases hpre with ⟨q, hq⟩ | ⟨q, hq⟩ | ⟨q, hq⟩
      all_goals
        obtain ⟨m1, m2, m3⟩ := muxMatch_subtree ExecuteTemplate q
        rw [← hq] at hno ⊢
      · cases hmm : muxMatch (mainMux ExecuteTemplate) (ascii "/view/" ++ q) with
        | none => rw [hmm] at m1; simp at m1
        | some en =>
          rw [hmm] at m1
          simp only [Option.map_some', Option.some.injEq] at m1
          simp only [m1, makeHandler]
          rw [← hq, hno]
      · cases hmm : muxMatch (mainMux ExecuteTemplate) (ascii "/edit/" ++ q) with
        | none => rw [hmm] at m2; simp at m2
        | some en =>
          rw [hmm] at m2
          simp only [Option.map_some', Option.some.injEq] at m2
          simp only [m2, makeHandler]
          rw [← hq, hno]
      · cases hmm : muxMatch (mainMux ExecuteTemplate) (ascii "/save/" ++ q) with
        | none => rw [hmm] at m3; simp at m3
        | some en =>
          rw [hmm] at m3
          simp only [Option.map_some', Option.some.injEq] at m3
          simp only [m3, makeHandler]
          rw [← hq, hno]
    rw [key]
    exact ⟨rfl, rfl⟩
  · intro hpre hv1 he1 hs1
    obtain ⟨q, hq⟩ := cleanPath_head r.Path hclean
    have key : serve ExecuteTemplate st r = (.written (ascii "Hello wiki!"), st) := by
      have := hidx q (by rw [← hq]; exact hclean)
        (fun h => hpre (Or.inl (by rw [hq]; exact h)))
        (fun h => hpre (Or.inr (Or.inl (by rw [hq]; exact h))))
        (fun h => hpre (Or.inr (Or.inr (by rw [hq]; exact h))))
        (by rw [← hq]; exact hv1) (by rw [← hq]; exact he1) (by rw [← hq]; exact hs1) r.Form
      rw [← hq] at this
      exact this
    rw [key]
    exact ⟨rfl, rfl⟩
  · exact hidx [] (by decide) (by decide) (by decide) (by decide) (by decide) (by decide)
      (by decide) r.Form
  · exact hidx (ascii "nonsense") (by decide) (by decide) (by decide) (by decide) (by decide)
      (by decide) (by decide) r.Form

end ServerClaims

/-- Witness for C4 as amended: the body `Hello [World]` saved under `Test` on a store without
files, then viewed; the page that is sent is what the template wrote for the saved body and
its filtered form. -/
theorem save_then_view_witness :
    Storable emptyStore (ascii "pages/" ++ ascii "Test" ++ ascii ".txt") ∧
    serve plainTemplates emptyStore
        ⟨ascii "/save/" ++ ascii "Test", [(ascii "body", ascii "Hello [World]")]⟩ =
      (.redirect (ascii "/view/" ++ ascii "Test") 302,
        (Page.save ⟨ascii "Test", ascii "Hello [World]", []⟩ emptyStore).2) ∧
    serve plainTemplates (Page.save ⟨ascii "Test", ascii "Hello [World]", []⟩ emptyStore).2
        ⟨ascii "/view/" ++ ascii "Test", []⟩ =
      (.written (ascii
          "view.html\nTest\nHello [World]\nHello <a href=\"/view/World\">World</a>"),
        (Page.save ⟨ascii "Test", ascii "Hello [World]", []⟩ emptyStore).2) :=
  have h := save_then_view plainTemplates emptyStore (ascii "Test") (ascii "Hello [World]")
    [(ascii "body", ascii "Hello [World]")] [] ⟨by decide, by decide⟩ rfl
    (storable_emptyStore _) rfl
  ⟨storable_emptyStore _, h.1,
    (h.2.1 (ascii "view.html\nTest\nHello [World]\nHello <a href=\"/view/World\">World</a>")
      (congrArg Except.ok (by decide))).1⟩

/-- Counterexample to C4 as stated: when `pages/Test.txt` is a symbolic link to `/dev/null`,
the write of the save handler succeeds and `/save/Test` is answered with the 302 redirect,
but the following `/view/Test` shows a page with the empty body, not the submitted body
`Hello [World]` and its link. -/
theorem save_then_view_shows_empty_body :
    (Page.save ⟨ascii "Test", ascii "Hello [World]", []⟩ sinkStore).1 = none ∧
    (serve plainTemplates sinkStore
        ⟨ascii "/save/Test", [(ascii "body", ascii "Hello [World]")]⟩).1 =
      .redirect (ascii "/view/Test") 302 ∧
    (serve plainTemplates
        (serve plainTemplates sinkStore
          ⟨ascii "/save/Test", [(ascii "body", ascii "Hello [World]")]⟩).2
        ⟨ascii "/view/Test", []⟩).1 = .written (ascii "view.html\nTest\n\n") ∧
    (serve plainTemplates
        (serve plainTemplates sinkStore
          ⟨ascii "/save/Test", [(ascii "body", ascii "Hello [World]")]⟩).2
        ⟨ascii "/view/Test", []⟩).1 ≠
      .written (ascii
        "view.html\nTest\nHello [World]\nHello <a href=\"/view/World\">World</a>") := by
  refine ⟨rfl, ?_, ?_, ?_⟩ <;> decide

/-- Counterexample to C7 as stated: on a store where reading fails with an input/output error,
`open` fails with an error that is not "not found", and the view handler still answers with a
302 redirect to the edit route, not with a server error. -/
theorem view_redirects_on_read_failure :
    «open» brokenStore (ascii "Foo") = .error ⟨false, ascii "input/output error"⟩ ∧
    viewHandler plainTemplates brokenStore ⟨ascii "/view/Foo", []⟩ (ascii "Foo") =
      (.redirect (ascii "/edit/Foo") 302, brokenStore) ∧
    (viewHandler plainTemplates brokenStore ⟨ascii "/view/Foo", []⟩ (ascii "Foo")).1.status ≠ 500 := by
  refine ⟨rfl, rfl, ?_⟩
  decide

/-- Witness for C7 as amended: a read failure on the page `Bar`. -/
theorem view_redirects_on_every_load_failure_witness :
    «open» brokenStore (ascii "Bar") = .error ⟨false, ascii "input/output error"⟩ ∧
    viewHandler plainTemplates brokenStore ⟨ascii "/view/Bar", []⟩ (ascii "Bar") =
      (.redirect (ascii "/edit/" ++ ascii "Bar") 302, brokenStore) :=
  ⟨rfl, (view_redirects_on_every_load_failure plainTemplates brokenStore ⟨ascii "/view/Bar", []⟩
    (ascii "Bar") ⟨false, ascii "input/output error"⟩ rfl).1⟩

/-- Counterexample to C5 as stated: the path `/nonsense` does not match `validPath` and is not
`/`, yet the server answers it with status 200 and the greeting, because the route `/`
registered by `main` takes every path outside the other routes. -/
theorem nonsense_is_answered_with_greeting :
    FindStringSubmatch validPath (ascii "/nonsense") = none ∧
    ascii "/nonsense" ≠ ascii "/" ∧
    (serve plainTemplates emptyStore ⟨ascii "/nonsense", []⟩).1 = .written (ascii "Hello wiki!") ∧
    (serve plainTemplates emptyStore ⟨ascii "/nonsense", []⟩).1.status = 200 := by
  refine ⟨by decide, by decide, ?_, ?_⟩ <;> decide

/-- Witness for C5 as amended: `/view/Foo Bar` is in canonical form, lies in the subtree
`/view/` and does not match, so it gets status 404. -/
theorem serve_unmatched_path_witness :
    cleanPath (ascii "/view/Foo Bar") = ascii "/view/Foo Bar" ∧
    FindStringSubmatch validPath (ascii "/view/Foo Bar") = none ∧
    (serve plainTemplates emptyStore ⟨ascii "/view/Foo Bar", []⟩).1.status = 404 :=
  ⟨by decide, by decide,
    ((serve_unmatched_path plainTemplates emptyStore ⟨ascii "/view/Foo Bar", []⟩ (by decide)
      (by decide)).1 (Or.inl (by decide))).2⟩

end Wiki
